import Mathlib

/-!
# Verification of the historydag compact-genome core

This file embeds the compact-genome algebra (`historydag/compact_genome.py`),
the canonical flatten/unflatten serialization and structural equality test
(`historydag/mutation_annotated_dag.py`), and the mutation-annotated protobuf
codec of the same module, as executable Lean definitions, and proves or
refutes the specification's claims about them.

Modelling conventions:
* Python strings are modelled as `List Char`; nucleotide bases as `Char`.
* A `frozendict` of mutations is modelled as an insertion-ordered association
  list `List (Nat × Char × Char)` (key, (old base, new base)).  The Python
  dict preserves insertion order, which matters because `flatten` serializes
  entries in iteration order; dict *equality* ignores order and is modelled
  by `mutsBeq` below.
* Non-fatal warnings (`warnings.warn`) are pure here: `mutateW` returns the
  warning condition as a `Bool` alongside its result.
* Fallible operations (`cg_hamming_distance`'s reference check) return
  `Option`.
* Python `set` iteration order over small non-negative integer keys is
  modelled as ascending order (`unionKeys` sorts the key union).
-/

abbrev Base := Char

abbrev MutList := List (Nat × Base × Base)

structure CompactGenome where
  mutations : MutList
  reference : List Char
deriving DecidableEq, Repr

/-- Association-list lookup, the model of `frozendict.__getitem__` /
`key in dict` on the mutations mapping. -/
def lookupMut (k : Nat) : MutList → Option (Base × Base)
  | [] => none
  | (k', p) :: rest => if k' = k then some p else lookupMut k rest

/-- Model of `idx in self.mutations`. -/
def hasKey (k : Nat) (m : MutList) : Bool := (lookupMut k m).isSome

/-- Model of `frozendict.set`: replace the value in place if the key is
present, otherwise append the new entry at the end (Python dicts keep the
original position of an updated key and append fresh keys). -/
def setMut (k : Nat) (v : Base × Base) : MutList → MutList
  | [] => [(k, v)]
  | (k', p) :: rest => if k' = k then (k, v) :: rest else (k', p) :: setMut k v rest

/-- Model of `frozendict.delete`. -/
def delMut (k : Nat) (m : MutList) : MutList := m.filter (fun e => e.1 ≠ k)

/-- The keys of the mutation mapping. -/
def mutKeys (m : MutList) : List Nat := m.map (·.1)

/-- Well-formedness of the association-list model of a dict: no repeated keys. -/
def keysNodup (m : MutList) : Prop := (mutKeys m).Nodup

instance : DecidablePred keysNodup := fun m => by
  unfold keysNodup; infer_instance

/-- Extensional equality of the mutation mappings: the model of
`frozendict.__eq__`, which ignores insertion order. -/
def mutsBeq (m1 m2 : MutList) : Bool :=
  m1.all (fun e => decide (lookupMut e.1 m2 = some e.2)) &&
    m2.all (fun e => decide (lookupMut e.1 m1 = some e.2))

/-- Model of `CompactGenome.__eq__` (source lines 24-25):
`(self.mutations, self.reference) == (other.mutations, other.reference)`. -/
def cgEqb (a b : CompactGenome) : Bool :=
  mutsBeq a.mutations b.mutations && decide (a.reference = b.reference)

/-- A numeric code for one mutation entry, used by the embedded hash. -/
def entryCode (e : Nat × Base × Base) : Nat :=
  e.1 * 4194304 + e.2.1.toNat * 2048 + e.2.2.toNat

/-- Model of `CompactGenome.__hash__` (source lines 21-22):
`hash(self.mutations)`.  The `frozendict` hash is a symmetric function of the
entry set (it hashes the frozenset of items), modelled here as the sum of
per-entry codes; it reads nothing but the mutation mapping. -/
def CompactGenome.hashVal (g : CompactGenome) : Nat :=
  (g.mutations.map entryCode).sum

/-- The data-model invariants of a compact genome (spec §3): keys are distinct
1-based positions within the reference, each entry's old base is the reference
base at its position, and no entry maps a position to itself. -/
def cgValid (g : CompactGenome) : Prop :=
  keysNodup g.mutations ∧ ∀ e ∈ g.mutations,
    1 ≤ e.1 ∧ e.1 ≤ g.reference.length ∧
      e.2.1 = g.reference.getD (e.1 - 1) 'A' ∧ e.2.2 ≠ e.2.1

instance : DecidablePred cgValid := fun g => by
  unfold cgValid keysNodup; infer_instance

/-- Model of `CompactGenome.mutate` (source lines 64-100).  The mutation
string `"A110G"` is passed as its parsed fields (old base, new base, 1-based
index); the parse (`mutstring[0]`, `mutstring[-1]`, `int(mutstring[1:-1])`) is
a bijection on well-formed mutation strings.  The non-fatal warning
("recorded old base in sequence doesn't match old base") is returned as the
`Bool` component. -/
def CompactGenome.mutateW (g : CompactGenome) (oldb newb : Base) (idx : Nat)
    (reverse : Bool) : CompactGenome × Bool :=
  let ob := if reverse then newb else oldb
  let nb := if reverse then oldb else newb
  let refBase := g.reference.getD (idx - 1) 'A'
  let idxPresent := hasKey idx g.mutations
  let oldRecorded := match lookupMut idx g.mutations with
    | some p => p.2
    | none => refBase
  let warnFlag := decide (ob ≠ oldRecorded)
  let res :=
    if refBase = nb then
      if idxPresent then ⟨delMut idx g.mutations, g.reference⟩ else g
    else ⟨setMut idx (refBase, nb) g.mutations, g.reference⟩
  (res, warnFlag)

/-- The genome returned by `CompactGenome.mutate`. -/
def CompactGenome.mutate (g : CompactGenome) (oldb newb : Base) (idx : Nat)
    (reverse : Bool) : CompactGenome :=
  (g.mutateW oldb newb idx reverse).1

/-- Model of `CompactGenome.apply_muts` (source lines 102-129); mutations are
(old base, new base, 1-based index) triples standing for mutation strings. -/
def CompactGenome.applyMuts (g : CompactGenome) (muts : List (Base × Base × Nat))
    (reverse : Bool) : CompactGenome :=
  let ms := if reverse then muts.reverse else muts
  ms.foldl (fun cg m => cg.mutate m.1 m.2.1 m.2.2 reverse) g

/-- Model of `CompactGenome.to_sequence` (source lines 131-141); the
warning-only reference check is dropped from the pure value. -/
def CompactGenome.toSequence (g : CompactGenome) : List Char :=
  g.mutations.foldl (fun s e => s.set (e.1 - 1) e.2.2) g.reference

/-- The comprehension over `enumerate(zip(reference, sequence))` in
`compact_genome_from_sequence`, written as a recursion carrying the 0-based
position; `zip` stops at the shorter list. -/
def fromSeqAux : Nat → List Char → List Char → MutList
  | _, [], _ => []
  | _, _ :: _, [] => []
  | i, ob :: rs, nb :: ss =>
    (if ob ≠ nb then [(i + 1, ob, nb)] else []) ++ fromSeqAux (i + 1) rs ss

/-- Model of `compact_genome_from_sequence` (source lines 164-176): records
`(reference base, sequence base)` at each (1-based) position where they
differ; positions beyond the shorter of the two inputs are silently dropped
by `zip`. -/
def compact_genome_from_sequence (sequence reference : List Char) : CompactGenome :=
  ⟨fromSeqAux 0 reference sequence, reference⟩

/-- Model of `cg_hamming_distance` (source lines 179-191); the
`ValueError` on mismatched references becomes `none`. -/
def cg_hamming_distance (a b : CompactGenome) : Option Nat :=
  if a.reference = b.reference then
    let s1 := (mutKeys a.mutations).dedup
    let s2 := (mutKeys b.mutations).dedup
    some ((s1.filter (fun k => decide (k ∉ s2))).length
      + (s2.filter (fun k => decide (k ∉ s1))).length
      + ((s1.filter (fun k => decide (k ∈ s2))).filter
          (fun k => decide ((lookupMut k a.mutations).map (·.2)
            ≠ (lookupMut k b.mutations).map (·.2)))).length)
  else none

/-- The key union `set(parent.keys()) | set(child.keys())` of `cg_diff`, with
Python's set iteration order modelled as ascending. -/
def unionKeys (parent child : CompactGenome) : List Nat :=
  ((mutKeys parent.mutations ++ mutKeys child.mutations).dedup).insertionSort (· ≤ ·)

/-- The per-position body of `cg_diff`'s loop: the effective parent and child
bases at one key (the genome's own recorded new base, or the other genome's
recorded old base when absent), yielding a mutation when they differ. -/
def diffFun (parent child : CompactGenome) (k : Nat) : Option (Base × Base × Nat) :=
  let pb := match lookupMut k parent.mutations with
    | some p => p.2
    | none => ((lookupMut k child.mutations).map (·.1)).getD 'A'
  let nb := match lookupMut k child.mutations with
    | some p => p.2
    | none => ((lookupMut k parent.mutations).map (·.1)).getD 'A'
  if pb ≠ nb then some (pb, nb, k) else none

/-- Model of `cg_diff` (source lines 206-222): yields
`(parent_nuc, child_nuc, sequence_index)` for every key of either genome where
the effective bases differ. -/
def cg_diff (parent child : CompactGenome) : List (Base × Base × Nat) :=
  (unionKeys parent child).filterMap (diffFun parent child)

/-! ## The history DAG model

The generic DAG engine (`historydag.dag`) is an external collaborator of this
core (spec §1, §6) and is not among the provided sources.  Following the
spec's collaborator contract, a DAG is modelled as its stable postorder node
enumeration (spec §5: "a stable total order (postorder)"), with the UA node
last; a node carries its label and its insertion-ordered clade→edge-set
mapping, edge targets being postorder indices of child nodes. -/

inductive CGLabel where
  | ua
  | node (cg : CompactGenome) (nodeId : Option String)
deriving DecidableEq, Repr

def CGLabel.isUa : CGLabel → Bool
  | .ua => true
  | .node _ _ => false

/-- Python equality on node labels: `UALabel` equals only `UALabel`
(`utils.UALabel.__eq__`), and label namedtuples compare componentwise with
`CompactGenome.__eq__` on the genome field. -/
def labelBeq : CGLabel → CGLabel → Bool
  | .ua, .ua => true
  | .node c1 i1, .node c2 i2 => cgEqb c1 c2 && i1 == i2
  | _, _ => false

/-- `label.compact_genome.mutations` (the UA label is never asked for its
genome in the embedded code paths; it answers the empty mapping). -/
def CGLabel.cgMuts : CGLabel → MutList
  | .ua => []
  | .node cg _ => cg.mutations

/-- The compact genome carried by a label, when there is one. -/
def CGLabel.cgOf : CGLabel → Option CompactGenome
  | .ua => none
  | .node cg _ => some cg

structure DagNode where
  label : CGLabel
  clades : List (Finset CGLabel × List Nat)
deriving DecidableEq

instance : Inhabited DagNode := ⟨⟨.ua, []⟩⟩

instance : Inhabited CompactGenome := ⟨⟨[], []⟩⟩

structure Dag where
  nodes : List DagNode
  attr : List (String × String)
deriving DecidableEq

/-- Lookup in the `dag.attr` dictionary. -/
def attrLookup (k : String) (a : List (String × String)) : Option String :=
  (a.find? (fun p => p.1 == k)).map (·.2)

/-- Model of `CGHistoryDag.get_reference_sequence` (source lines 277-283):
the reference of the first non-UA node's compact genome (the engine's
preorder with `skip_ua_node` is modelled as the stored enumeration; in a
valid `CGHistoryDag` every non-UA label carries the same reference, so the
choice of enumeration does not matter). -/
def Dag.getReferenceSequence (g : Dag) : List Char :=
  match g.nodes.find? (fun nd => !nd.label.isUa) with
  | some nd =>
    match nd.label with
    | .node cg _ => cg.reference
    | .ua => []
  | none => []

/-! ## flatten / test_equal / unflatten -/

/-- Strict comparison of mutation entries, as Python compares the nested
lists `[position, [old, new]]`. -/
def entryLt (e1 e2 : Nat × Base × Base) : Bool :=
  e1.1 < e2.1 || (e1.1 == e2.1 &&
    (e1.2.1 < e2.2.1 || (e1.2.1 == e2.2.1 && e1.2.2 < e2.2.2)))

def entryLe (e1 e2 : Nat × Base × Base) : Bool := entryLt e1 e2 || e1 == e2

/-- Python's lexicographic comparison of two serialized compact genomes
(lists of `[position, [old, new]]` entries). -/
def mutListLe : MutList → MutList → Bool
  | [], _ => true
  | _ :: _, [] => false
  | e1 :: r1, e2 :: r2 => if e1 = e2 then mutListLe r1 r2 else entryLt e1 e2

/-- `get_compact_genome` inside `flatten` (source lines 202-213): the label's
mutation entries in dict order, sorted when `sort_compact_genomes` is set;
the UA node serializes to the empty list. -/
def encodeCG (sortFlag : Bool) (l : CGLabel) : MutList :=
  match l with
  | .ua => []
  | .node cg _ =>
    if sortFlag then cg.mutations.insertionSort (fun e1 e2 => entryLe e1 e2 = true)
    else cg.mutations

/-- The spec's "canonicalized" view of one serialized genome entry list
(C9): its entries brought into sorted order, so that two serializations of
the same mutation dict compare equal. -/
def canonMuts (m : MutList) : MutList :=
  m.insertionSort (fun e1 e2 => entryLe e1 e2 = true)

/-- The first `flatten` pass (source lines 215-219): build the deduplicated
compact-genome list and the label→index mapping in first-encounter postorder
order; dict keys compare with Python label equality. -/
def buildCgAux (sortFlag : Bool) : List DagNode → List (CGLabel × Nat) → List MutList →
    List (CGLabel × Nat) × List MutList
  | [], idxs, cgl => (idxs, cgl)
  | nd :: rest, idxs, cgl =>
    if (idxs.find? (fun p => labelBeq p.1 nd.label)).isSome then
      buildCgAux sortFlag rest idxs cgl
    else
      buildCgAux sortFlag rest (idxs ++ [(nd.label, cgl.length)])
        (cgl ++ [encodeCG sortFlag nd.label])

/-- `cg_indices[label]` (the label's index in the deduplicated genome list). -/
def cgIndexOf (idxs : List (CGLabel × Nat)) (l : CGLabel) : Nat :=
  ((idxs.find? (fun p => labelBeq p.1 l)).map (·.2)).getD 0

/-- The stable sort of `enumerate(compact_genome_list)` by serialized genome
(source line 222). -/
def sortRemap (cgl : List MutList) : List (Nat × MutList) :=
  cgl.enum.insertionSort (fun p q => mutListLe p.2 q.2 = true)

/-- The innermost `flatten` edge loop (source lines 234-236): one edge triple
`(parent index, child index, clade index)` per target of each clade of the
node at postorder index `i`, clades numbered from `ci`. -/
def cladeEdges (i : Nat) : Nat → List (Finset CGLabel × List Nat) → List (Nat × Nat × Nat)
  | _, [] => []
  | ci, c :: rest => c.2.map (fun t => (i, t, ci)) ++ cladeEdges i (ci + 1) rest

/-- The second `flatten` pass's edge loop (source lines 231-236); `i` is the
postorder index of the first node of `nds`. -/
def flattenEdges : Nat → List DagNode → List (Nat × Nat × Nat)
  | _, [] => []
  | i, nd :: rest => cladeEdges i 0 nd.clades ++ flattenEdges (i + 1) rest

structure FlatDag where
  refseqId : String
  refseq : List Char
  compactGenomes : List MutList
  nodes : List (Nat × List (Finset Nat))
  edges : List (Nat × Nat × Nat)
deriving DecidableEq

/-- `CGHistoryDag.flatten` (source lines 174-247). -/
def flattenDag (g : Dag) (sortCompactGenomes : Bool) : FlatDag :=
  let built := buildCgAux sortCompactGenomes g.nodes [] []
  let remapped :=
    if sortCompactGenomes then
      let se := sortRemap built.2
      (built.1.map (fun p => (p.1, se.findIdx (fun q => q.1 == p.2))), se.map (·.2))
    else built
  let idxs := remapped.1
  let nodeList := g.nodes.map (fun nd =>
    (cgIndexOf idxs nd.label, nd.clades.map (fun c => c.1.image (cgIndexOf idxs))))
  let edgeList := flattenEdges 0 g.nodes
  { refseqId := (attrLookup "refseq" g.attr).getD "unknown_seqid"
    refseq := g.getReferenceSequence
    compactGenomes := remapped.2
    nodes := nodeList
    edges := edgeList }

/-- The label→genome-index mapping used by `flattenDag` (the `cg_indices`
dict after the optional sort-and-remap step), named for the theorems. -/
def flatIdxs (g : Dag) (sortCompactGenomes : Bool) : List (CGLabel × Nat) :=
  let built := buildCgAux sortCompactGenomes g.nodes [] []
  if sortCompactGenomes then
    let se := sortRemap built.2
    built.1.map (fun p => (p.1, se.findIdx (fun q => q.1 == p.2)))
  else built.1

/-- The serialized compact-genome list produced by `flattenDag`, named for
the theorems. -/
def flatCgl (g : Dag) (sortCompactGenomes : Bool) : List MutList :=
  let built := buildCgAux sortCompactGenomes g.nodes [] []
  if sortCompactGenomes then (sortRemap built.2).map (·.2) else built.2

/-- `convert_flatnode` inside `test_equal` (source lines 263-268). -/
def convertFlatnode (fn : Nat × List (Finset Nat)) : Nat × Finset (Finset Nat) :=
  (fn.1, fn.2.toFinset)

/-- `get_edge_set` inside `test_equal` (source lines 259-273): the canonical
edge set, every node represented by (genome index, set of clade-index sets). -/
def getEdgeSet (f : FlatDag) :
    Finset ((Nat × Finset (Finset Nat)) × (Nat × Finset (Finset Nat))) :=
  let nl := f.nodes.map convertFlatnode
  (f.edges.map (fun e => (nl.getD e.1 (0, ∅), nl.getD e.2.1 (0, ∅)))).toFinset

/-- `CGHistoryDag.test_equal` (source lines 249-275). -/
def testEqual (a b : Dag) : Bool :=
  let f1 := flattenDag a false
  let f2 := flattenDag b false
  decide (f1.compactGenomes = f2.compactGenomes) &&
    decide (getEdgeSet f1 = getEdgeSet f2)

/-- The per-flat-node body of `unflatten` (source lines 452-501): `p` is one
entry of `enumerate(flat_dag.nodes)`.  A flat node with exactly one clade is
taken for the UA node ("This must be the UA node") and rebuilt through the
engine's UA construction path, whose single clade key is the empty frozenset;
other nodes get genome-only labels. -/
def unflatNode (f : FlatDag) (p : Nat × Nat × List (Finset Nat)) : DagNode :=
  let cgs : List CompactGenome := f.compactGenomes.map (fun m => ⟨m, f.refseq⟩)
  let mkLabel : Nat → CGLabel := fun i => CGLabel.node (cgs.getD i ⟨[], f.refseq⟩) none
  let targetsFor : Nat → Nat → List Nat := fun nidx ci =>
    (f.edges.filter (fun e => e.1 == nidx && e.2.2 == ci)).map (·.2.1)
  if p.2.2.length = 1 then
    ({ label := .ua, clades := [(∅, targetsFor p.1 0)] } : DagNode)
  else
    { label := .node (cgs.getD p.2.1 ⟨[], f.refseq⟩) none
      clades := p.2.2.enum.map (fun c => (c.2.image mkLabel, targetsFor p.1 c.1)) }

/-- `unflatten` (source lines 452-501): rebuild each flat node, then
overwrite the last node's label with the UA label (source line 488). -/
def unflattenDag (f : FlatDag) : Dag :=
  let nodes := f.nodes.enum.map (unflatNode f)
  let nodes := match nodes.length with
    | 0 => nodes
    | n + 1 => nodes.set n { nodes.getD n default with label := .ua }
  { nodes := nodes, attr := [("refseq", f.refseqId)] }

/-- Wellformedness of a node label for the flatten/unflatten theorems: a real
label is genome-only (its node-id field is `None`), carries the shared
reference, and has a duplicate-free mutation mapping. -/
def labelWf (r : List Char) : CGLabel → Prop
  | .ua => True
  | .node cg i => i = none ∧ cg.reference = r ∧ keysNodup cg.mutations

instance (r : List Char) : DecidablePred (labelWf r) := fun l => by
  cases l with
  | ua => exact isTrue trivial
  | node cg i =>
    exact inferInstanceAs (Decidable (i = none ∧ cg.reference = r ∧ keysNodup cg.mutations))

/-- A label whose genome's mutation dict iterates in strictly increasing
position order. -/
def cgSortedLabel : CGLabel → Prop
  | .ua => True
  | .node cg _ => List.Pairwise (fun e1 e2 => entryLt e1 e2 = true) cg.mutations

instance : DecidablePred cgSortedLabel := fun l => by
  cases l with
  | ua => exact isTrue trivial
  | node cg i =>
    exact inferInstanceAs
      (Decidable (List.Pairwise (fun e1 e2 => entryLt e1 e2 = true) cg.mutations))

/-- Wellformedness of a DAG for the flatten/unflatten round trip: the node
list is nonempty and ends with the UA node, whose single clade key is the
empty set (the engine's UA construction); no other node has exactly one
clade (so the decoder's one-clade heuristic identifies the UA node
correctly); labels are genome-only over one shared reference with
duplicate-free mutation dicts; clade members are non-UA node labels; and
Python-equal labels are represented by one value. -/
def dagWf (g : Dag) : Prop :=
  g.nodes ≠ [] ∧
  (g.nodes.getLast?).map (fun nd => nd.label) = some .ua ∧
  (g.nodes.getLast?).map (fun nd => nd.clades.map (·.1)) = some [∅] ∧
  (∀ nd ∈ g.nodes.dropLast, nd.label.isUa = false ∧ nd.clades.length ≠ 1) ∧
  (∀ nd ∈ g.nodes, labelWf g.getReferenceSequence nd.label) ∧
  (∀ nd ∈ g.nodes, ∀ c ∈ nd.clades, ∀ l ∈ c.1,
    l.isUa = false ∧ ∃ nd' ∈ g.nodes, nd'.label = l) ∧
  (∀ nd ∈ g.nodes, ∀ nd' ∈ g.nodes,
    labelBeq nd.label nd'.label = true → nd.label = nd'.label)

instance : DecidablePred dagWf := fun g => by
  unfold dagWf
  infer_instance

/-! ## The mutation-annotated protobuf codec -/

structure PbMut where
  position : Nat
  parNuc : Nat
  mutNuc : List Nat
deriving DecidableEq, Repr

structure PbEdge where
  parentNode : Nat
  parentClade : Nat
  childNode : Nat
  edgeMutations : List PbMut
deriving DecidableEq, Repr

structure PbNodeName where
  nodeId : Nat
  condensedLeaves : List String
deriving DecidableEq, Repr

instance : Inhabited PbNodeName := ⟨⟨0, []⟩⟩

structure PbData where
  referenceSeq : List Char
  referenceId : String
  nodeNames : List PbNodeName
  edges : List PbEdge
deriving DecidableEq, Repr

/-- `_pb_nuc_lookup` (source line 29). -/
def pbNucLookup : Nat → Base
  | 0 => 'A'
  | 1 => 'C'
  | 2 => 'G'
  | 3 => 'T'
  | _ => 'A'

/-- `_pb_nuc_codes` (source line 30). -/
def pbNucCode : Base → Nat
  | 'A' => 0
  | 'C' => 1
  | 'G' => 2
  | 'T' => 3
  | _ => 0

/-- `_pb_mut_to_str` (source lines 33-37) composed with the mutation-string
parse of `mutate`: the (old base, new base, 1-based position) triple. -/
def pbMutToMut (m : PbMut) : Base × Base × Nat :=
  (pbNucLookup m.parNuc, pbNucLookup (m.mutNuc.getD 0 0), m.position)

/-- A computable sorted enumeration of a multiset of integer-list keys (the
lexicographic order is total and antisymmetric, so the result does not depend
on the representative). -/
def msetSortedKeys (s : Multiset (List Nat)) : List (List Nat) :=
  Quot.liftOn s (fun l => l.insertionSort (· ≤ ·)) (fun l1 l2 h =>
    List.eq_of_perm_of_sorted
      ((List.perm_insertionSort _ _).trans (h.trans (List.perm_insertionSort _ _).symm))
      (List.sorted_insertionSort _ _) (List.sorted_insertionSort _ _))

/-- `key_func` in `to_protobuf` (source lines 131-135): for each label in the
clade, the sorted list of its mutated positions; the whole list sorted (the
lexicographic order on integer lists, as Python compares nested lists). -/
def cladeSortKey (c : Finset CGLabel) : List (List Nat) :=
  msetSortedKeys (c.1.map (fun l => (mutKeys l.cgMuts).insertionSort (· ≤ ·)))

/-- `CGHistoryDag.to_protobuf` (source lines 111-165), `leaf_data_func`
optional.  Wire node ids are postorder indices; each node's clades are sorted
by `key_func` before edges are emitted; each edge carries the diff from the
parent genome (the empty genome for the UA node) to the child genome. -/
def Dag.toProtobuf (g : Dag) (leafDataFunc : Option (DagNode → String)) : PbData :=
  let refseq := g.getReferenceSequence
  let emptyCg : CompactGenome := ⟨[], refseq⟩
  let nodeNames := g.nodes.enum.map (fun p =>
    ({ nodeId := p.1
       condensedLeaves := match leafDataFunc with
         | some f => if p.2.clades.isEmpty then [f p.2] else []
         | none => [] } : PbNodeName))
  let cgOf := fun (l : CGLabel) => match l with
    | .ua => emptyCg
    | .node cg _ => cg
  let edges := (g.nodes.enum.map (fun p =>
    ((p.2.clades.insertionSort (fun c1 c2 =>
        cladeSortKey c1.1 ≤ cladeSortKey c2.1)).enum.map
      (fun c => c.2.2.map (fun t =>
        let child := g.nodes.getD t default
        ({ parentNode := p.1
           parentClade := c.1
           childNode := t
           edgeMutations := (cg_diff (cgOf p.2.label) (cgOf child.label)).map (fun mu =>
             { position := mu.2.2, parNuc := pbNucCode mu.1,
               mutNuc := [pbNucCode mu.2.1] }) } : PbEdge)))).flatten)).flatten
  { referenceSeq := refseq
    referenceId := (attrLookup "refseqid" g.attr).getD "unknown_seqid"
    nodeNames := nodeNames
    edges := edges }

/-- Generic association-list lookup keyed by integers. -/
def assocFind {α : Type} (k : Nat) : List (Nat × α) → Option α
  | [] => none
  | (k', v) :: rest => if k' = k then some v else assocFind k rest

/-- Modelled from the spec: the IUPAC code standing for exactly a set of
disagreeing bases (spec §4.2: "an ambiguity code representing exactly that
disagreeing set of bases"); the input is sorted and duplicate-free. -/
def ambiguityCode : List Base → Base
  | ['A'] => 'A'
  | ['C'] => 'C'
  | ['G'] => 'G'
  | ['T'] => 'T'
  | ['A', 'C'] => 'M'
  | ['A', 'G'] => 'R'
  | ['A', 'T'] => 'W'
  | ['C', 'G'] => 'S'
  | ['C', 'T'] => 'Y'
  | ['G', 'T'] => 'K'
  | ['A', 'C', 'G'] => 'V'
  | ['A', 'C', 'T'] => 'H'
  | ['A', 'G', 'T'] => 'D'
  | ['C', 'G', 'T'] => 'B'
  | _ => 'N'

/-- Modelled from the spec: `reconcile_cgs` (spec §4.2, Genome Reconciliation)
is imported by `mutation_annotated_dag.py` from `historydag.compact_genome`,
but its definition is not among the provided sources.  Position by position
over all candidates, collect the set of asserted bases (a candidate with no
entry asserts the reference base); agreement keeps the base, disagreement
stores the ambiguity code of exactly the disagreeing set and raises the
ambiguous flag; a single candidate is returned unchanged with the flag
false. -/
def reconcile_cgs (cgs : List CompactGenome) : CompactGenome × Bool :=
  match cgs with
  | [] => (⟨[], []⟩, false)
  | [g] => (g, false)
  | g :: _ =>
    let ref := g.reference
    let allKeys :=
      ((cgs.map (fun c => mutKeys c.mutations)).flatten.dedup).insertionSort (· ≤ ·)
    let basesAt := fun (k : Nat) =>
      ((cgs.map (fun c => match lookupMut k c.mutations with
        | some p => p.2
        | none => ref.getD (k - 1) 'A')).dedup).insertionSort (· ≤ ·)
    let entries := allKeys.filterMap (fun k =>
      let bs := basesAt k
      let base := if bs.length = 1 then bs.getD 0 'A' else ambiguityCode bs
      let rb := ref.getD (k - 1) 'A'
      if base = rb then none else some (k, rb, base))
    (⟨entries, ref⟩, allKeys.any (fun k => 1 < (basesAt k).length))

/-- `traverse_postorder` inside `load_MAD_protobuf` (source lines 543-558):
depth-first traversal following child edges in order, visiting each node id
at most once, yielding ids in postorder.  Recursion is bounded by explicit
fuel; one level of fuel is consumed per nesting level, and every nested call
targets a previously unvisited id, so `number of nodes + 1` fuel suffices. -/
def dfsPost (childIds : Nat → List Nat) : Nat → List Nat → Nat → List Nat × List Nat
  | 0, visited, _ => ([], visited)
  | fuel + 1, visited, nid =>
    let r := (childIds nid).foldl
      (fun (acc : List Nat × List Nat) c =>
        if c ∈ acc.2 then acc
        else
          let s := dfsPost childIds fuel acc.2 c
          (acc.1 ++ s.1, s.2))
      ([], nid :: visited)
    (r.1 ++ [nid], r.2)

/-- Modelled from the spec: the external engine's rebuild of an in-memory DAG
from flat label/node/edge lists (`HistoryDag.__setstate__` followed by
`from_history_dag`; spec §6 collaborator contract and §4.3 steps 5-6).  A
node record carries its label index and the clade unions of its children
(sets of label indices); the node whose label is the UA sentinel is rebuilt
through the UA construction path with the single empty clade key; each edge
(parent postorder index, child postorder index) is inserted into the parent's
edge set at the clade matching the child's clade union (the empty key when
the parent is the UA node).  A leaf's clade union is the singleton of its own
label. -/
def setstateDag (labelList : List CGLabel) (nodeList : List (Nat × List (Finset Nat)))
    (edgeList : List (Nat × Nat)) (attr : List (String × String)) : Dag :=
  let labelOfIdx := fun (i : Nat) => labelList.getD i .ua
  let cladeUnionOf := fun (ci : Nat) =>
    let r := nodeList.getD ci (0, [])
    if r.2.isEmpty then ({labelOfIdx r.1} : Finset CGLabel)
    else (r.2.map (fun s => s.image labelOfIdx)).foldl (· ∪ ·) ∅
  let dedupKeys := fun (ks : List (Finset CGLabel)) =>
    ks.foldl (fun acc k => if k ∈ acc then acc else acc ++ [k]) []
  let nodes := nodeList.enum.map (fun p =>
    let lbl := labelOfIdx p.2.1
    let cladeKeys : List (Finset CGLabel) :=
      if lbl.isUa then [∅] else dedupKeys (p.2.2.map (fun s => s.image labelOfIdx))
    ({ label := lbl
       clades := cladeKeys.map (fun ck =>
         (ck, (edgeList.filter (fun e => e.1 == p.1 &&
            (if lbl.isUa then (∅ : Finset CGLabel) else cladeUnionOf e.2) == ck)).map
              (·.2))) } : DagNode))
  ⟨nodes, attr⟩

/-- `load_MAD_protobuf` (source lines 504-737) specialized to
`topology_only=False` and `leaf_cgs=None`: the compact-genome decode path.
The engine-side list-to-DAG reconstruction at the end is `setstateDag`. -/
def load_MAD_protobuf (pbdata : PbData) : Dag :=
  let reference := pbdata.referenceSeq
  let parentEdges := fun (nid : Nat) => pbdata.edges.filter (fun e => e.childNode == nid)
  let childEdges := fun (nid : Nat) => pbdata.edges.filter (fun e => e.parentNode == nid)
  -- the source asserts exactly one parentless node id by tuple unpacking
  let uaNodeId := ((pbdata.nodeNames.filter
    (fun n => (parentEdges n.nodeId).isEmpty)).map (·.nodeId)).getD 0 0
  let idPostorder := (dfsPost (fun nid => (childEdges nid).map (·.childNode))
    (pbdata.nodeNames.length + 1) [] uaNodeId).1
  let idRevPostorder := idPostorder.reverse
  -- build_compact_genomes (source lines 561-596), with leaf_cgs = None
  let getLeafCg := fun (cgMap : List (Nat × CompactGenome)) (nid : Nat) =>
    reconcile_cgs ((parentEdges nid).map (fun e =>
      ((assocFind e.parentNode cgMap).getD ⟨[], reference⟩).applyMuts
        (e.edgeMutations.map pbMutToMut) false))
  let bc := idRevPostorder.tail.foldl
    (fun (acc : List (Nat × CompactGenome) × Bool) nid =>
      if 0 < (childEdges nid).length then
        match parentEdges nid with
        | e :: _ =>
          (acc.1 ++ [(nid, ((assocFind e.parentNode acc.1).getD ⟨[], reference⟩).applyMuts
            (e.edgeMutations.map pbMutToMut) false)], acc.2)
        | [] => acc
      else
        let r := getLeafCg acc.1 nid
        (acc.1 ++ [(nid, r.1)], acc.2 || r.2))
    ([(uaNodeId, ⟨[], reference⟩)], false)
  let nodeCgDict := bc.1
  -- get_node_label (source lines 618-626), topology_only=False
  let getNodeLabel := fun (nid : Nat) =>
    let idString := if (childEdges nid).isEmpty then
        some ((pbdata.nodeNames.getD nid default).condensedLeaves.getD 0 "")
      else none
    CGLabel.node ((assocFind nid nodeCgDict).getD ⟨[], reference⟩) idString
  let nodeLabels := pbdata.nodeNames.map (fun nr => getNodeLabel nr.nodeId)
  -- label deduplication (source lines 650-660); dict keys use label equality
  let labelList0 := nodeLabels.foldl
    (fun acc l => if acc.any (fun l' => labelBeq l' l) then acc else acc ++ [l]) []
  let labelIdxOf := fun (l : CGLabel) =>
    (labelList0.findIdx? (fun l' => labelBeq l' l)).getD 0
  -- clade unions bottom-up in postorder (source lines 665-677)
  let cuDict := idPostorder.foldl
    (fun (acc : List (Nat × Finset Nat)) nid =>
      if (childEdges nid).isEmpty then
        acc ++ [(nid, {labelIdxOf (nodeLabels.getD nid .ua)})]
      else
        acc ++ [(nid, ((childEdges nid).map
          (fun e => (assocFind e.childNode acc).getD ∅)).foldl (· ∪ ·) ∅)]) []
  let getChildClades := fun (nid : Nat) =>
    (childEdges nid).map (fun e => (assocFind e.childNode cuDict).getD ∅)
  let postorderIdx := fun (nid : Nat) => idPostorder.findIdx (fun x => x == nid)
  let nodeList0 := idPostorder.map (fun nid =>
    (labelIdxOf (nodeLabels.getD nid .ua), getChildClades nid))
  let edgeList := pbdata.edges.map (fun e =>
    (postorderIdx e.parentNode, postorderIdx e.childNode))
  -- fix label list, adding the UA label at the end, and point the last node
  -- record (the UA node) at it (source lines 721-726)
  let labelList := labelList0 ++ [CGLabel.ua]
  let nodeList := match nodeList0.length with
    | 0 => nodeList0
    | n + 1 => nodeList0.set n (labelList0.length, (nodeList0.getD n (0, [])).2)
  setstateDag labelList nodeList edgeList [("refseqid", pbdata.referenceId)]

/-! ## Concrete inputs used by counterexamples and witnesses -/

def refAA : List Char := ['A', 'A']

def leafLabelC1 : CGLabel := .node ⟨[(1, ('A', 'C'))], refAA⟩ none

def leafLabelC2 : CGLabel := .node ⟨[(2, ('A', 'C'))], refAA⟩ none

/-- A DAG with a non-UA internal node carrying exactly one clade
(a unifurcation): UA → inner → leaf. -/
def dagUnifurc : Dag :=
  ⟨[⟨leafLabelC1, []⟩,
    ⟨leafLabelC2, [({leafLabelC1}, [0])]⟩,
    ⟨.ua, [(∅, [1])]⟩], []⟩

/-- Two leaves under the UA node. -/
def dagTwoLeaf : Dag :=
  ⟨[⟨leafLabelC1, []⟩, ⟨leafLabelC2, []⟩, ⟨.ua, [(∅, [0, 1])]⟩], []⟩

/-- The same DAG with the two leaves listed in the opposite postorder
positions. -/
def dagTwoLeafSwapped : Dag :=
  ⟨[⟨leafLabelC2, []⟩, ⟨leafLabelC1, []⟩, ⟨.ua, [(∅, [0, 1])]⟩], []⟩

/-- `dagTwoLeaf` with the UA node's single edge set listed in the opposite
order (same node indexing). -/
def dagTwoLeafEdgeSwap : Dag :=
  ⟨[⟨leafLabelC1, []⟩, ⟨leafLabelC2, []⟩, ⟨.ua, [(∅, [1, 0])]⟩], []⟩

/-- UA → inner → two leaves, where the inner node's genome is empty (equal to
the reference), so its serialized genome collides with the UA node's. -/
def dagEmptyInner : Dag :=
  ⟨[⟨leafLabelC1, []⟩, ⟨leafLabelC2, []⟩,
    ⟨.node ⟨[], refAA⟩ none, [({leafLabelC1}, [0]), ({leafLabelC2}, [1])]⟩,
    ⟨.ua, [(∅, [2])]⟩], []⟩

/-- A single leaf whose mutation dict is stored in decreasing-position order. -/
def leafCgProto : CompactGenome := ⟨[(2, ('A', 'C')), (1, ('A', 'G'))], refAA⟩

/-- UA → leaf, the leaf's genome dict iterating position 2 before position 1. -/
def dagProto : Dag :=
  ⟨[⟨.node leafCgProto (some "L1"), []⟩, ⟨.ua, [(∅, [0])]⟩], []⟩

/-! ## Helper lemmas on the mutation-mapping model -/

theorem lookupMut_mem {k : Nat} {v : Base × Base} {m : MutList}
    (h : lookupMut k m = some v) : (k, v) ∈ m := by
  induction m with
  | nil => simp [lookupMut] at h
  | cons e rest ih =>
    obtain ⟨k', p⟩ := e
    rw [lookupMut] at h
    by_cases hk : k' = k
    · rw [if_pos hk] at h
      subst hk
      cases h
      exact List.mem_cons_self _ _
    · rw [if_neg hk] at h
      exact List.mem_cons_of_mem _ (ih h)

theorem lookupMut_isSome_iff {k : Nat} {m : MutList} :
    (lookupMut k m).isSome = true ↔ k ∈ mutKeys m := by
  induction m with
  | nil => simp [lookupMut, mutKeys]
  | cons e rest ih =>
    obtain ⟨k', p⟩ := e
    rw [lookupMut]
    by_cases hk : k' = k
    · subst hk
      simp [mutKeys]
    · rw [if_neg hk]
      simp only [mutKeys, List.map_cons, List.mem_cons]
      rw [ih]
      constructor
      · exact fun h => Or.inr h
      · rintro (h | h)
        · exact absurd h.symm hk
        · exact h

theorem lookupMut_eq_none_iff {k : Nat} {m : MutList} :
    lookupMut k m = none ↔ k ∉ mutKeys m := by
  rw [← lookupMut_isSome_iff]
  cases lookupMut k m <;> simp

theorem mem_lookupMut {k : Nat} {v : Base × Base} {m : MutList}
    (hn : keysNodup m) (h : (k, v) ∈ m) : lookupMut k m = some v := by
  induction m with
  | nil => simp at h
  | cons e rest ih =>
    obtain ⟨k', p⟩ := e
    rw [keysNodup, mutKeys, List.map_cons, List.nodup_cons] at hn
    rcases List.mem_cons.mp h with h1 | h1
    · cases h1
      rw [lookupMut, if_pos rfl]
    · rw [lookupMut]
      by_cases hk : k' = k
      · subst hk
        exact absurd (by simpa [mutKeys] using List.mem_map_of_mem Prod.fst h1) hn.1
      · rw [if_neg hk]
        exact ih hn.2 h1

theorem mutsBeq_iff {m1 m2 : MutList} (h1 : keysNodup m1) (h2 : keysNodup m2) :
    mutsBeq m1 m2 = true ↔ ∀ k, lookupMut k m1 = lookupMut k m2 := by
  rw [mutsBeq, Bool.and_eq_true, List.all_eq_true, List.all_eq_true]
  constructor
  · rintro ⟨ha, hb⟩ k
    cases hv1 : lookupMut k m1 with
    | some v =>
      have h2' : lookupMut k m2 = some v := by
        have := ha _ (lookupMut_mem hv1)
        simpa using this
      exact h2'.symm
    | none =>
      cases hv2 : lookupMut k m2 with
      | some w =>
        have h1' : lookupMut k m1 = some w := by
          have := hb _ (lookupMut_mem hv2)
          simpa using this
        rw [hv1] at h1'
        simp at h1'
      | none => rfl
  · intro h
    constructor
    · intro e he
      rw [decide_eq_true_iff, ← h e.1]
      exact mem_lookupMut h1 (by simpa using he)
    · intro e he
      rw [decide_eq_true_iff, h e.1]
      exact mem_lookupMut h2 (by simpa using he)

theorem lookupMut_setMut (k k' : Nat) (v : Base × Base) (m : MutList) :
    lookupMut k' (setMut k v m) = if k = k' then some v else lookupMut k' m := by
  induction m with
  | nil => simp [setMut, lookupMut]
  | cons e rest ih =>
    obtain ⟨k0, p⟩ := e
    rw [setMut]
    by_cases h0 : k0 = k
    · subst h0
      rw [if_pos rfl, lookupMut, lookupMut]
      by_cases hk : k0 = k' <;> simp [hk]
    · rw [if_neg h0, lookupMut, lookupMut, ih]
      by_cases hk0 : k0 = k' <;> by_cases hk : k = k'
      · exact absurd (hk0.trans hk.symm) h0
      · simp [hk0, hk]
      · simp [hk0, hk]
      · simp [hk0, hk]

theorem lookupMut_delMut (k k' : Nat) (m : MutList) :
    lookupMut k' (delMut k m) = if k = k' then none else lookupMut k' m := by
  induction m with
  | nil => simp [delMut, lookupMut]
  | cons e rest ih =>
    obtain ⟨k0, p⟩ := e
    simp only [delMut, List.filter_cons] at ih ⊢
    by_cases h0 : k0 = k
    · subst h0
      have hd : (decide (¬ (k0, p).1 = k0)) = false := by simp
      rw [hd]
      simp only [Bool.false_eq_true, if_false]
      rw [ih]
      by_cases hk : k0 = k' <;> simp [lookupMut, hk]
    · have hd : (decide (¬ (k0, p).1 = k)) = true := by simp [h0]
      rw [hd]
      simp only [if_true]
      rw [lookupMut, lookupMut, ih]
      by_cases hk0 : k0 = k' <;> by_cases hk : k = k'
      · exact absurd (hk0.trans hk.symm) h0
      · simp [hk0, hk]
      · simp [hk0, hk]
      · simp [hk0, hk]

theorem lookupMut_append (k : Nat) (l1 l2 : MutList) :
    lookupMut k (l1 ++ l2) =
      match lookupMut k l1 with
      | some v => some v
      | none => lookupMut k l2 := by
  induction l1 with
  | nil => simp [lookupMut]
  | cons e rest ih =>
    obtain ⟨k0, p⟩ := e
    rw [List.cons_append, lookupMut, lookupMut]
    by_cases hk : k0 = k
    · rw [if_pos hk, if_pos hk]
    · rw [if_neg hk, if_neg hk, ih]

theorem mem_mutKeys_setMut {k' k : Nat} {v : Base × Base} {m : MutList} :
    k' ∈ mutKeys (setMut k v m) ↔ k' = k ∨ k' ∈ mutKeys m := by
  induction m with
  | nil => simp [setMut, mutKeys]
  | cons e rest ih =>
    obtain ⟨k0, p⟩ := e
    by_cases h0 : k0 = k
    · subst h0
      rw [setMut, if_pos rfl]
      simp only [mutKeys, List.map_cons, List.mem_cons] at ih ⊢
      tauto
    · rw [setMut, if_neg h0]
      simp only [mutKeys, List.map_cons, List.mem_cons] at ih ⊢
      rw [ih]
      tauto

theorem keysNodup_setMut {k : Nat} {v : Base × Base} {m : MutList}
    (h : keysNodup m) : keysNodup (setMut k v m) := by
  induction m with
  | nil => simp [setMut, keysNodup, mutKeys]
  | cons e rest ih =>
    obtain ⟨k0, p⟩ := e
    rw [keysNodup, mutKeys, List.map_cons, List.nodup_cons] at h
    by_cases h0 : k0 = k
    · subst h0
      rw [setMut, if_pos rfl, keysNodup, mutKeys, List.map_cons, List.nodup_cons]
      exact ⟨h.1, h.2⟩
    · rw [setMut, if_neg h0, keysNodup, mutKeys, List.map_cons, List.nodup_cons]
      refine ⟨?_, ih h.2⟩
      intro hmem
      rcases mem_mutKeys_setMut.mp hmem with h1 | h1
      · exact h0 h1
      · exact h.1 h1

theorem keysNodup_delMut {k : Nat} {m : MutList} (h : keysNodup m) :
    keysNodup (delMut k m) := by
  rw [keysNodup, delMut, mutKeys]
  exact ((List.filter_sublist m).map Prod.fst).nodup h

/-- The value of `mutate` with the let-bindings of the source reduced. -/
theorem mutate_eq (g : CompactGenome) (o n : Base) (k : Nat) (rev : Bool) :
    g.mutate o n k rev =
      (if g.reference.getD (k - 1) 'A' = (if rev then o else n) then
        (if hasKey k g.mutations then ⟨delMut k g.mutations, g.reference⟩ else g)
      else
        ⟨setMut k (g.reference.getD (k - 1) 'A', if rev then o else n) g.mutations,
          g.reference⟩) := rfl

theorem mutate_reference (g : CompactGenome) (o n : Base) (k : Nat) (rev : Bool) :
    (g.mutate o n k rev).reference = g.reference := by
  rw [mutate_eq]
  by_cases h1 : g.reference.getD (k - 1) 'A' = (if rev then o else n)
  · rw [if_pos h1]
    by_cases h2 : hasKey k g.mutations
    · rw [if_pos h2]
    · rw [if_neg h2]
  · rw [if_neg h1]

theorem mutate_keysNodup (g : CompactGenome) (o n : Base) (k : Nat) (rev : Bool)
    (h : keysNodup g.mutations) : keysNodup (g.mutate o n k rev).mutations := by
  rw [mutate_eq]
  by_cases h1 : g.reference.getD (k - 1) 'A' = (if rev then o else n)
  · rw [if_pos h1]
    by_cases h2 : hasKey k g.mutations
    · rw [if_pos h2]
      exact keysNodup_delMut h
    · rw [if_neg h2]
      exact h
  · rw [if_neg h1]
    exact keysNodup_setMut h

theorem mutate_lookup (g : CompactGenome) (o n : Base) (k k' : Nat) :
    lookupMut k' (g.mutate o n k false).mutations =
      if k = k' then
        (if g.reference.getD (k - 1) 'A' = n then none
         else some (g.reference.getD (k - 1) 'A', n))
      else lookupMut k' g.mutations := by
  rw [mutate_eq]
  simp only [Bool.false_eq_true, if_false]
  by_cases href : g.reference.getD (k - 1) 'A' = n
  · rw [if_pos href]
    by_cases hpres : hasKey k g.mutations
    · rw [if_pos hpres]
      simp only
      rw [lookupMut_delMut]
      by_cases hk : k = k'
      · rw [if_pos hk, if_pos hk, if_pos href]
      · rw [if_neg hk, if_neg hk]
    · rw [if_neg hpres]
      by_cases hk : k = k'
      · subst hk
        rw [if_pos rfl, if_pos href]
        rw [hasKey] at hpres
        cases hval : lookupMut k g.mutations with
        | some v => rw [hval] at hpres; simp at hpres
        | none => rfl
      · rw [if_neg hk]
  · rw [if_neg href]
    simp only
    rw [lookupMut_setMut]
    by_cases hk : k = k'
    · rw [if_pos hk, if_pos hk, if_neg href]
    · rw [if_neg hk, if_neg hk]

theorem mem_unionKeys {a b : CompactGenome} {k : Nat} :
    k ∈ unionKeys a b ↔ k ∈ mutKeys a.mutations ∨ k ∈ mutKeys b.mutations := by
  rw [unionKeys, (List.perm_insertionSort _ _).mem_iff, List.mem_dedup, List.mem_append]

theorem unionKeys_nodup (a b : CompactGenome) : (unionKeys a b).Nodup := by
  rw [unionKeys]
  exact (List.perm_insertionSort _ _).nodup_iff.mpr (List.nodup_dedup _)

theorem cgValid_lookup {g : CompactGenome} (h : cgValid g) {k : Nat} {o n : Base}
    (hl : lookupMut k g.mutations = some (o, n)) :
    1 ≤ k ∧ k ≤ g.reference.length ∧ o = g.reference.getD (k - 1) 'A' ∧ n ≠ o := by
  have := h.2 _ (lookupMut_mem hl)
  simpa using this

theorem diffFun_none_effect {a b : CompactGenome} (ha : cgValid a) (hb : cgValid b)
    (hr : a.reference = b.reference) {k : Nat} (h : diffFun a b k = none) :
    lookupMut k a.mutations = lookupMut k b.mutations := by
  cases hA : lookupMut k a.mutations with
  | some pa =>
    obtain ⟨o1, n1⟩ := pa
    cases hB : lookupMut k b.mutations with
    | some pbv =>
      obtain ⟨o2, n2⟩ := pbv
      simp only [diffFun, hA, hB, ne_eq, ite_not, Option.map_some, Option.getD_some,
        ite_eq_left_iff] at h
      have h1 := cgValid_lookup ha hA
      have h2 := cgValid_lookup hb hB
      by_cases hn : n1 = n2
      · subst hn
        rw [h1.2.2.1, h2.2.2.1, hr]
      · simp [hn] at h
    | none =>
      simp only [diffFun, hA, hB, ne_eq, ite_not, Option.map_some, Option.getD_some,
        ite_eq_left_iff] at h
      have h1 := cgValid_lookup ha hA
      by_cases hn : n1 = o1
      · exact absurd hn h1.2.2.2
      · simp [hn] at h
  | none =>
    cases hB : lookupMut k b.mutations with
    | some pbv =>
      obtain ⟨o2, n2⟩ := pbv
      simp only [diffFun, hA, hB, ne_eq, ite_not, Option.map_some, Option.getD_some,
        ite_eq_left_iff] at h
      have h2 := cgValid_lookup hb hB
      by_cases hn : o2 = n2
      · exact absurd hn.symm h2.2.2.2
      · simp [hn] at h
    | none => rfl

theorem diffFun_some_effect {a b : CompactGenome} (ha : cgValid a) (hb : cgValid b)
    (hr : a.reference = b.reference) {k : Nat} {mu : Base × Base × Nat}
    (h : diffFun a b k = some mu) :
    mu.2.2 = k ∧
      ((if a.reference.getD (k - 1) 'A' = mu.2.1 then none
        else some (a.reference.getD (k - 1) 'A', mu.2.1)) = lookupMut k b.mutations) := by
  cases hA : lookupMut k a.mutations with
  | some pa =>
    obtain ⟨o1, n1⟩ := pa
    have h1 := cgValid_lookup ha hA
    cases hB : lookupMut k b.mutations with
    | some pbv =>
      obtain ⟨o2, n2⟩ := pbv
      have h2 := cgValid_lookup hb hB
      simp only [diffFun, hA, hB, ne_eq, ite_not] at h
      by_cases hn : n1 = n2
      · simp [hn] at h
      · rw [if_neg (by exact fun hx => hn hx)] at h
        cases h
        refine ⟨rfl, ?_⟩
        have ho2 : o2 = a.reference.getD (k - 1) 'A' := by rw [h2.2.2.1, hr]
        rw [if_neg (by rw [← ho2]; exact fun hx => h2.2.2.2 hx.symm)]
        rw [ho2]
    | none =>
      simp only [diffFun, hA, hB, ne_eq, ite_not, Option.map_some, Option.getD_some] at h
      by_cases hn : n1 = o1
      · simp [hn] at h
      · rw [if_neg (by exact fun hx => hn hx)] at h
        cases h
        refine ⟨rfl, ?_⟩
        have hg : (Option.map (fun x => (x : Base × Base).1) (some (o1, n1))).getD 'A' = o1 := rfl
        rw [hg, if_pos h1.2.2.1.symm]
  | none =>
    cases hB : lookupMut k b.mutations with
    | some pbv =>
      obtain ⟨o2, n2⟩ := pbv
      have h2 := cgValid_lookup hb hB
      simp only [diffFun, hA, hB, ne_eq, ite_not, Option.map_some, Option.getD_some] at h
      by_cases hn : o2 = n2
      · simp [hn] at h
      · rw [if_neg (by exact fun hx => hn hx)] at h
        cases h
        refine ⟨rfl, ?_⟩
        have ho2 : o2 = a.reference.getD (k - 1) 'A' := by rw [h2.2.2.1, hr]
        rw [if_neg (by rw [← ho2]; exact fun hx => h2.2.2.2 hx.symm), ho2]
    | none =>
      simp [diffFun, hA, hB] at h

theorem diffFun_self_none {a b : CompactGenome} {k : Nat}
    (h : lookupMut k a.mutations = lookupMut k b.mutations) : diffFun a b k = none := by
  cases hA : lookupMut k a.mutations with
  | some pa =>
    obtain ⟨o1, n1⟩ := pa
    rw [hA] at h
    simp [diffFun, hA, ← h]
  | none =>
    rw [hA] at h
    simp [diffFun, hA, ← h]

theorem diff_apply_aux (a b : CompactGenome) (ha : cgValid a) (hb : cgValid b)
    (hr : a.reference = b.reference) :
    ∀ (ks : List Nat), ks.Nodup →
      ∀ (g : CompactGenome), g.reference = a.reference → keysNodup g.mutations →
        (∀ k, lookupMut k g.mutations =
          if k ∈ ks then lookupMut k a.mutations else lookupMut k b.mutations) →
        ((ks.filterMap (diffFun a b)).foldl
            (fun cg m => cg.mutate m.1 m.2.1 m.2.2 false) g).reference = a.reference ∧
        keysNodup ((ks.filterMap (diffFun a b)).foldl
            (fun cg m => cg.mutate m.1 m.2.1 m.2.2 false) g).mutations ∧
        ∀ k, lookupMut k ((ks.filterMap (diffFun a b)).foldl
            (fun cg m => cg.mutate m.1 m.2.1 m.2.2 false) g).mutations =
          lookupMut k b.mutations := by
  intro ks
  induction ks with
  | nil =>
    intro _ g hgr hgn hg
    simp only [List.filterMap_nil, List.foldl_nil]
    refine ⟨hgr, hgn, fun k => ?_⟩
    have := hg k
    simpa using this
  | cons k0 ks ih =>
    intro hnd g hgr hgn hg
    rw [List.nodup_cons] at hnd
    rw [List.filterMap_cons]
    cases hd : diffFun a b k0 with
    | none =>
      apply ih hnd.2 g hgr hgn
      intro k
      by_cases hk : k = k0
      · subst hk
        rw [hg k, if_pos (List.mem_cons_self _ _), if_neg hnd.1]
        exact diffFun_none_effect ha hb hr hd
      · rw [hg k]
        by_cases hks : k ∈ ks
        · rw [if_pos (List.mem_cons_of_mem _ hks), if_pos hks]
        · rw [if_neg ?_, if_neg hks]
          simp only [List.mem_cons]
          rintro (h | h)
          · exact hk h
          · exact hks h
    | some mu =>
      obtain ⟨pb, nb, k2⟩ := mu
      obtain ⟨hk2, heff⟩ := diffFun_some_effect ha hb hr hd
      simp only at hk2
      subst hk2
      rw [List.foldl_cons]
      apply ih hnd.2
      · rw [mutate_reference]
        exact hgr
      · exact mutate_keysNodup _ _ _ _ _ hgn
      · intro k
        rw [mutate_lookup]
        by_cases hk : k2 = k
        · subst hk
          rw [if_pos rfl, if_neg hnd.1, hgr]
          exact heff
        · rw [if_neg hk, hg k]
          by_cases hks : k ∈ ks
          · rw [if_pos (List.mem_cons_of_mem _ hks), if_pos hks]
          · rw [if_neg ?_, if_neg hks]
            simp only [List.mem_cons]
            rintro (h | h)
            · exact hk h.symm
            · exact hks h

theorem applyMuts_false_eq (g : CompactGenome) (l : List (Base × Base × Nat)) :
    g.applyMuts l false = l.foldl (fun cg m => cg.mutate m.1 m.2.1 m.2.2 false) g := rfl

/-- C5: for all compact genomes `a` and `b` sharing one reference (both
satisfying the compact-genome data-model invariants of spec §3), applying the
mutations yielded by `cg_diff a b` to `a` via `apply_muts` yields `b` under
`CompactGenome.__eq__`, and `cg_diff a b` yields no mutations iff `a == b`. -/
theorem claim_C5 (a b : CompactGenome) (ha : cgValid a) (hb : cgValid b)
    (hr : a.reference = b.reference) :
    cgEqb (a.applyMuts (cg_diff a b) false) b = true ∧
      (cg_diff a b = [] ↔ cgEqb a b = true) := by
  have hinit : ∀ k, lookupMut k a.mutations =
      if k ∈ unionKeys a b then lookupMut k a.mutations else lookupMut k b.mutations := by
    intro k
    by_cases hk : k ∈ unionKeys a b
    · rw [if_pos hk]
    · rw [if_neg hk]
      rw [mem_unionKeys] at hk
      push_neg at hk
      rw [lookupMut_eq_none_iff.mpr hk.1, lookupMut_eq_none_iff.mpr hk.2]
  obtain ⟨hresR, hresN, hresL⟩ :=
    diff_apply_aux a b ha hb hr (unionKeys a b) (unionKeys_nodup a b) a rfl ha.1 hinit
  constructor
  · rw [applyMuts_false_eq, cg_diff, cgEqb, Bool.and_eq_true, decide_eq_true_iff]
    constructor
    · rw [mutsBeq_iff hresN hb.1]
      exact hresL
    · rw [hresR]
      exact hr
  · constructor
    · intro hdiff
      rw [cgEqb, Bool.and_eq_true, decide_eq_true_iff]
      refine ⟨?_, hr⟩
      rw [mutsBeq_iff ha.1 hb.1]
      intro k
      by_cases hk : k ∈ unionKeys a b
      · refine diffFun_none_effect ha hb hr ?_
        rw [cg_diff] at hdiff
        exact List.filterMap_eq_nil_iff.mp hdiff k hk
      · rw [mem_unionKeys] at hk
        push_neg at hk
        rw [lookupMut_eq_none_iff.mpr hk.1, lookupMut_eq_none_iff.mpr hk.2]
    · intro heq
      rw [cgEqb, Bool.and_eq_true, decide_eq_true_iff] at heq
      obtain ⟨heqm, -⟩ := heq
      rw [mutsBeq_iff ha.1 hb.1] at heqm
      rw [cg_diff]
      apply List.filterMap_eq_nil_iff.mpr
      intro k _
      exact diffFun_self_none (heqm k)

theorem claim_C5_witness :
    cgValid ⟨[], ['A']⟩ ∧ cgValid ⟨[(1, ('A', 'C'))], ['A']⟩ ∧
      (⟨[], ['A']⟩ : CompactGenome).reference =
        (⟨[(1, ('A', 'C'))], ['A']⟩ : CompactGenome).reference ∧
      (cgEqb ((⟨[], ['A']⟩ : CompactGenome).applyMuts
          (cg_diff ⟨[], ['A']⟩ ⟨[(1, ('A', 'C'))], ['A']⟩) false)
          ⟨[(1, ('A', 'C'))], ['A']⟩ = true ∧
        (cg_diff ⟨[], ['A']⟩ ⟨[(1, ('A', 'C'))], ['A']⟩ = [] ↔
          cgEqb ⟨[], ['A']⟩ ⟨[(1, ('A', 'C'))], ['A']⟩ = true)) :=
  ⟨by decide, by decide, by decide,
    claim_C5 ⟨[], ['A']⟩ ⟨[(1, ('A', 'C'))], ['A']⟩ (by decide) (by decide) (by decide)⟩

/-- C6: `mutate` (with old/new swapped first when `reverse` is set) leaves the
reference untouched and, at the mutated position, removes the entry when the
new base equals the reference base there (leaving the genome unchanged when
no entry was present) and otherwise stores `(reference base, new base)`; the
returned genome never depends on the caller-supplied old base, which only
decides the non-fatal warning; and applying (old='A', new='A', pos=2) to
`{2: ('A','C')}` over reference "AAAA" yields `{}`. -/
theorem claim_C6 (g : CompactGenome) (o n : Base) (pos : Nat) (rev : Bool)
    (h1 : 1 ≤ pos) (h2 : pos ≤ g.reference.length) :
    ((g.mutate o n pos rev).reference = g.reference ∧
      (∀ k, lookupMut k (g.mutate o n pos rev).mutations =
        (if k = pos then
          (if g.reference.getD (pos - 1) 'A' = (if rev then o else n) then none
           else some (g.reference.getD (pos - 1) 'A', if rev then o else n))
         else lookupMut k g.mutations))) ∧
    (∀ o2 : Base, g.mutate o2 n pos false = g.mutate o n pos false) ∧
    (∀ n2 : Base, g.mutate o n2 pos true = g.mutate o n pos true) ∧
    ((g.mutateW o n pos rev).2 = true ↔
      (if rev then n else o) ≠
        (match lookupMut pos g.mutations with
         | some p => p.2
         | none => g.reference.getD (pos - 1) 'A')) ∧
    CompactGenome.mutate ⟨[(2, ('A', 'C'))], ['A', 'A', 'A', 'A']⟩ 'A' 'A' 2 false =
      ⟨[], ['A', 'A', 'A', 'A']⟩ := by
  refine ⟨⟨mutate_reference g o n pos rev, ?_⟩, fun o2 => rfl, fun n2 => rfl, ?_, by decide⟩
  · intro k
    cases rev with
    | false =>
      rw [show g.mutate o n pos false = g.mutate o n pos false from rfl, mutate_lookup]
      by_cases hk : pos = k
      · subst hk
        rw [if_pos rfl, if_pos rfl]
        rfl
      · rw [if_neg hk, if_neg (fun h => hk h.symm)]
    | true =>
      rw [show g.mutate o n pos true = g.mutate n o pos false from rfl, mutate_lookup]
      by_cases hk : pos = k
      · subst hk
        rw [if_pos rfl, if_pos rfl]
        rfl
      · rw [if_neg hk, if_neg (fun h => hk h.symm)]
  · exact decide_eq_true_iff

theorem claim_C6_witness :
    1 ≤ 2 ∧ 2 ≤ (⟨[(2, ('A', 'C'))], ['A', 'A', 'A', 'A']⟩ : CompactGenome).reference.length ∧
    (((CompactGenome.mutate ⟨[(2, ('A', 'C'))], ['A', 'A', 'A', 'A']⟩ 'A' 'A' 2 false).reference =
        (⟨[(2, ('A', 'C'))], ['A', 'A', 'A', 'A']⟩ : CompactGenome).reference ∧
      (∀ k, lookupMut k (CompactGenome.mutate ⟨[(2, ('A', 'C'))], ['A', 'A', 'A', 'A']⟩
          'A' 'A' 2 false).mutations =
        (if k = 2 then
          (if (⟨[(2, ('A', 'C'))], ['A', 'A', 'A', 'A']⟩ : CompactGenome).reference.getD
              (2 - 1) 'A' = (if false then 'A' else 'A') then none
           else some ((⟨[(2, ('A', 'C'))], ['A', 'A', 'A', 'A']⟩ :
              CompactGenome).reference.getD (2 - 1) 'A', if false then 'A' else 'A'))
         else lookupMut k (⟨[(2, ('A', 'C'))], ['A', 'A', 'A', 'A']⟩ :
            CompactGenome).mutations))) ∧
      (∀ o2 : Base, CompactGenome.mutate ⟨[(2, ('A', 'C'))], ['A', 'A', 'A', 'A']⟩ o2 'A' 2 false =
        CompactGenome.mutate ⟨[(2, ('A', 'C'))], ['A', 'A', 'A', 'A']⟩ 'A' 'A' 2 false) ∧
      (∀ n2 : Base, CompactGenome.mutate ⟨[(2, ('A', 'C'))], ['A', 'A', 'A', 'A']⟩ 'A' n2 2 true =
        CompactGenome.mutate ⟨[(2, ('A', 'C'))], ['A', 'A', 'A', 'A']⟩ 'A' 'A' 2 true) ∧
      ((CompactGenome.mutateW ⟨[(2, ('A', 'C'))], ['A', 'A', 'A', 'A']⟩ 'A' 'A' 2 false).2 = true ↔
        (if false then 'A' else 'A') ≠
          (match lookupMut 2 (⟨[(2, ('A', 'C'))], ['A', 'A', 'A', 'A']⟩ :
              CompactGenome).mutations with
           | some p => p.2
           | none => (⟨[(2, ('A', 'C'))], ['A', 'A', 'A', 'A']⟩ :
              CompactGenome).reference.getD (2 - 1) 'A')) ∧
      CompactGenome.mutate ⟨[(2, ('A', 'C'))], ['A', 'A', 'A', 'A']⟩ 'A' 'A' 2 false =
        ⟨[], ['A', 'A', 'A', 'A']⟩) :=
  ⟨by decide, by decide,
    claim_C6 ⟨[(2, ('A', 'C'))], ['A', 'A', 'A', 'A']⟩ 'A' 'A' 2 false (by decide) (by decide)⟩

theorem entries_toFinset_eq {m1 m2 : MutList} (h1 : keysNodup m1) (h2 : keysNodup m2)
    (h : ∀ k, lookupMut k m1 = lookupMut k m2) : m1.toFinset = m2.toFinset := by
  ext e
  obtain ⟨k, v⟩ := e
  simp only [List.mem_toFinset]
  constructor
  · intro hm
    exact lookupMut_mem ((h k) ▸ mem_lookupMut h1 hm)
  · intro hm
    exact lookupMut_mem ((h k).symm ▸ mem_lookupMut h2 hm)

/-- C3 as stated is false: two compact genomes with identical (empty)
mutation mappings but different reference strings hash equal yet do NOT
compare equal, because `__eq__` also compares the references. -/
theorem claim_C3_counterexample :
    mutsBeq (⟨[], ['A']⟩ : CompactGenome).mutations
        (⟨[], ['C']⟩ : CompactGenome).mutations = true ∧
    CompactGenome.hashVal ⟨[], ['A']⟩ = CompactGenome.hashVal ⟨[], ['C']⟩ ∧
    cgEqb ⟨[], ['A']⟩ ⟨[], ['C']⟩ = false := by decide

/-- C3 amended: hashing depends only on the mutation mapping, but equality
compares the mutation mapping AND the reference: genomes with identical
mutation mappings always hash equal, and compare equal exactly when their
references are also equal. -/
theorem claim_C3 (g1 g2 : CompactGenome) (h1 : keysNodup g1.mutations)
    (h2 : keysNodup g2.mutations) :
    (mutsBeq g1.mutations g2.mutations = true → g1.hashVal = g2.hashVal) ∧
    (cgEqb g1 g2 = true ↔
      (mutsBeq g1.mutations g2.mutations = true ∧ g1.reference = g2.reference)) := by
  constructor
  · intro hbeq
    rw [mutsBeq_iff h1 h2] at hbeq
    have h1' : (List.map Prod.fst g1.mutations).Nodup := h1
    have h2' : (List.map Prod.fst g2.mutations).Nodup := h2
    have hperm : g1.mutations.Perm g2.mutations :=
      List.perm_of_nodup_nodup_toFinset_eq (List.Nodup.of_map Prod.fst h1')
        (List.Nodup.of_map Prod.fst h2') (entries_toFinset_eq h1 h2 hbeq)
    rw [CompactGenome.hashVal, CompactGenome.hashVal]
    exact (hperm.map entryCode).sum_eq
  · rw [cgEqb, Bool.and_eq_true, decide_eq_true_iff]

theorem claim_C3_witness :
    keysNodup ([(1, ('A', 'C'))] : MutList) ∧
    ((mutsBeq (⟨[(1, ('A', 'C'))], ['A']⟩ : CompactGenome).mutations
        (⟨[(1, ('A', 'C'))], ['C']⟩ : CompactGenome).mutations = true →
        CompactGenome.hashVal ⟨[(1, ('A', 'C'))], ['A']⟩ =
          CompactGenome.hashVal ⟨[(1, ('A', 'C'))], ['C']⟩) ∧
      (cgEqb ⟨[(1, ('A', 'C'))], ['A']⟩ ⟨[(1, ('A', 'C'))], ['C']⟩ = true ↔
        (mutsBeq (⟨[(1, ('A', 'C'))], ['A']⟩ : CompactGenome).mutations
            (⟨[(1, ('A', 'C'))], ['C']⟩ : CompactGenome).mutations = true ∧
          (⟨[(1, ('A', 'C'))], ['A']⟩ : CompactGenome).reference =
            (⟨[(1, ('A', 'C'))], ['C']⟩ : CompactGenome).reference))) :=
  ⟨by decide,
    claim_C3 ⟨[(1, ('A', 'C'))], ['A']⟩ ⟨[(1, ('A', 'C'))], ['C']⟩ (by decide) (by decide)⟩

theorem lookupMut_append_none {k : Nat} {l1 l2 : MutList}
    (h : lookupMut k l1 = none) : lookupMut k (l1 ++ l2) = lookupMut k l2 := by
  rw [lookupMut_append, h]

theorem fromSeqAux_lookup (r : List Char) :
    ∀ (s : List Char) (i k : Nat),
      lookupMut k (fromSeqAux i r s) =
        if i + 1 ≤ k ∧ k ≤ i + r.length ∧ k ≤ i + s.length ∧
            r.getD (k - i - 1) 'A' ≠ s.getD (k - i - 1) 'A'
        then some (r.getD (k - i - 1) 'A', s.getD (k - i - 1) 'A')
        else none := by
  induction r with
  | nil =>
    intro s i k
    rw [show fromSeqAux i [] s = [] from rfl, lookupMut, if_neg]
    rintro ⟨ha, hb, -, -⟩
    rw [List.length_nil] at hb
    omega
  | cons ob rs ih =>
    intro s i k
    cases s with
    | nil =>
      rw [show fromSeqAux i (ob :: rs) [] = [] from rfl, lookupMut, if_neg]
      rintro ⟨ha, -, hc, -⟩
      rw [List.length_nil] at hc
      omega
    | cons nb ss =>
      rw [show fromSeqAux i (ob :: rs) (nb :: ss) =
        (if ob ≠ nb then [(i + 1, ob, nb)] else []) ++ fromSeqAux (i + 1) rs ss from rfl]
      by_cases hk : k = i + 1
      · subst hk
        by_cases hob : ob = nb
        · rw [lookupMut_append_none (by rw [if_neg (by simpa using hob)]; rfl)]
          rw [ih ss (i + 1) (i + 1)]
          rw [if_neg (by rintro ⟨ha, -, -, -⟩; omega), if_neg]
          rintro ⟨-, -, -, hd⟩
          have hz : i + 1 - i - 1 = 0 := by omega
          rw [hz, List.getD_cons_zero, List.getD_cons_zero] at hd
          exact hd hob
        · rw [if_pos hob, lookupMut_append,
            show lookupMut (i + 1) ([(i + 1, ob, nb)] : MutList) = some (ob, nb) from by
              rw [lookupMut, if_pos rfl]]
          rw [if_pos]
          · have hz : i + 1 - i - 1 = 0 := by omega
            rw [hz, List.getD_cons_zero, List.getD_cons_zero]
          · refine ⟨by omega, ?_, ?_, ?_⟩
            · simp only [List.length_cons]
              omega
            · simp only [List.length_cons]
              omega
            · have hz : i + 1 - i - 1 = 0 := by omega
              rw [hz, List.getD_cons_zero, List.getD_cons_zero]
              exact hob
      · have hnone : lookupMut k (if ob ≠ nb then [(i + 1, ob, nb)] else []) = none := by
          by_cases hob : ob = nb
          · rw [if_neg (by simpa using hob)]
            rfl
          · rw [if_pos (by simpa using hob), lookupMut, if_neg (fun h => hk h.symm)]
            rfl
        rw [lookupMut_append_none hnone, ih ss (i + 1) k]
        by_cases hge : i + 1 + 1 ≤ k
        · have hidx : k - i - 1 = (k - (i + 1) - 1) + 1 := by omega
          rw [hidx, List.getD_cons_succ, List.getD_cons_succ]
          apply if_congr _ rfl rfl
          simp only [List.length_cons]
          constructor
          · rintro ⟨a1, a2, a3, a4⟩
            exact ⟨by omega, by omega, by omega, a4⟩
          · rintro ⟨a1, a2, a3, a4⟩
            exact ⟨by omega, by omega, by omega, a4⟩
        · rw [if_neg (by rintro ⟨a1, -, -, -⟩; omega),
            if_neg (by rintro ⟨a1, -, -, -⟩; omega)]

/-- C4 is wrong about the failure mode: for sequence and reference of
differing lengths, `compact_genome_from_sequence` raises nothing and returns
a CompactGenome built from the truncated `zip` of the two inputs. -/
theorem claim_C4_counterexample :
    (['A'] : List Char).length ≠ (['A', 'A'] : List Char).length ∧
    compact_genome_from_sequence ['A'] ['A', 'A'] = ⟨[], ['A', 'A']⟩ := by decide

/-- C4 amended: `compact_genome_from_sequence` never fails with a length
check; its mutation mapping holds, at each 1-based position inside BOTH
inputs, the pair (reference base, sequence base) exactly when they differ —
positions beyond the shorter input are silently dropped by `zip`. -/
theorem claim_C4 (sequence reference : List Char) (k : Nat) :
    (compact_genome_from_sequence sequence reference).reference = reference ∧
    lookupMut k (compact_genome_from_sequence sequence reference).mutations =
      (if 1 ≤ k ∧ k ≤ reference.length ∧ k ≤ sequence.length ∧
          reference.getD (k - 1) 'A' ≠ sequence.getD (k - 1) 'A'
       then some (reference.getD (k - 1) 'A', sequence.getD (k - 1) 'A')
       else none) := by
  refine ⟨rfl, ?_⟩
  rw [show (compact_genome_from_sequence sequence reference).mutations =
    fromSeqAux 0 reference sequence from rfl]
  rw [fromSeqAux_lookup]
  simp only [Nat.sub_zero, Nat.zero_add]

theorem getD_set_self (s : List Char) (i : Nat) (a : Char) (h : i < s.length) :
    (s.set i a).getD i 'A' = a := by
  rw [List.getD_eq_getElem?_getD, List.getElem?_set_self h]
  rfl

theorem getD_set_ne (s : List Char) (i j : Nat) (a : Char) (h : i ≠ j) :
    (s.set i a).getD j 'A' = s.getD j 'A' := by
  rw [List.getD_eq_getElem?_getD, List.getElem?_set_ne h, ← List.getD_eq_getElem?_getD]

theorem toSeqFold_length (l : MutList) : ∀ s : List Char,
    (l.foldl (fun t e => t.set (e.1 - 1) e.2.2) s).length = s.length := by
  induction l with
  | nil => intro s; rfl
  | cons e rest ih =>
    intro s
    rw [List.foldl_cons, ih, List.length_set]

theorem toSequence_length (g : CompactGenome) :
    g.toSequence.length = g.reference.length := toSeqFold_length g.mutations g.reference

theorem toSeqFold_getD (l : MutList) : ∀ (s : List Char), keysNodup l →
    (∀ e ∈ l, 1 ≤ e.1 ∧ e.1 ≤ s.length) → ∀ i, i < s.length →
      (l.foldl (fun t e => t.set (e.1 - 1) e.2.2) s).getD i 'A' =
        (match lookupMut (i + 1) l with
         | some p => p.2
         | none => s.getD i 'A') := by
  induction l with
  | nil =>
    intro s _ _ i _
    rfl
  | cons e rest ih =>
    obtain ⟨k, o, n⟩ := e
    intro s hnd hb i hi
    rw [keysNodup, mutKeys, List.map_cons, List.nodup_cons] at hnd
    have hk1 : 1 ≤ k := (hb _ (List.mem_cons_self _ _)).1
    have hk2 : k ≤ s.length := (hb _ (List.mem_cons_self _ _)).2
    rw [List.foldl_cons, ih (s.set (k - 1) n) hnd.2
      (fun e he => ⟨(hb e (List.mem_cons_of_mem _ he)).1,
        by rw [List.length_set]; exact (hb e (List.mem_cons_of_mem _ he)).2⟩)
      i (by rwa [List.length_set])]
    by_cases hk : k = i + 1
    · subst hk
      rw [show lookupMut (i + 1) (((i + 1, o, n)) :: rest) = some (o, n) from by
        rw [lookupMut, if_pos rfl]]
      rw [lookupMut_eq_none_iff.mpr hnd.1]
      rw [show i + 1 - 1 = i from by omega]
      exact getD_set_self s i n hi
    · rw [show lookupMut (i + 1) (((k, o, n)) :: rest) = lookupMut (i + 1) rest from by
        rw [lookupMut, if_neg hk]]
      cases hr : lookupMut (i + 1) rest with
      | some p => rfl
      | none => exact getD_set_ne s (k - 1) i n (by omega)

theorem fromSeqAux_keys_lb {r s : List Char} {i k : Nat}
    (hk : k ∈ mutKeys (fromSeqAux i r s)) : i + 1 ≤ k := by
  rw [← lookupMut_isSome_iff, fromSeqAux_lookup] at hk
  split at hk
  · rename_i hcond
    exact hcond.1
  · simp at hk

theorem fromSeqAux_keysNodup (r : List Char) : ∀ (s : List Char) (i : Nat),
    keysNodup (fromSeqAux i r s) := by
  induction r with
  | nil =>
    intro s i
    exact List.nodup_nil
  | cons ob rs ih =>
    intro s i
    cases s with
    | nil => exact List.nodup_nil
    | cons nb ss =>
      rw [show fromSeqAux i (ob :: rs) (nb :: ss) =
        (if ob ≠ nb then [(i + 1, ob, nb)] else []) ++ fromSeqAux (i + 1) rs ss from rfl]
      by_cases hob : ob = nb
      · rw [if_neg (by simpa using hob), List.nil_append]
        exact ih ss (i + 1)
      · rw [if_pos hob, List.singleton_append, keysNodup, mutKeys, List.map_cons,
          List.nodup_cons]
        refine ⟨fun hmem => ?_, ih ss (i + 1)⟩
        have := fromSeqAux_keys_lb hmem
        omega

/-- C7: rebuilding a compact genome from its materialized sequence against its
own reference (`from_sequence(to_sequence(g), g.reference)`) returns a genome
`==`-equal to `g`, for every genome satisfying the data-model invariants. -/
theorem claim_C7 (g : CompactGenome) (hv : cgValid g) :
    cgEqb (compact_genome_from_sequence g.toSequence g.reference) g = true := by
  rw [cgEqb, Bool.and_eq_true, decide_eq_true_iff]
  refine ⟨?_, rfl⟩
  have hseq : keysNodup (compact_genome_from_sequence g.toSequence g.reference).mutations :=
    fromSeqAux_keysNodup g.reference g.toSequence 0
  rw [mutsBeq_iff hseq hv.1]
  intro k
  rw [show (compact_genome_from_sequence g.toSequence g.reference).mutations =
    fromSeqAux 0 g.reference g.toSequence from rfl, fromSeqAux_lookup]
  have hlen : g.toSequence.length = g.reference.length := toSequence_length g
  cases hg : lookupMut k g.mutations with
  | some p =>
    obtain ⟨o, n⟩ := p
    have hvk := cgValid_lookup hv hg
    have hi : k - 1 < g.reference.length := by omega
    have hsk : g.toSequence.getD (k - 1) 'A' = n := by
      have hfold := toSeqFold_getD g.mutations g.reference hv.1
        (fun e he => ⟨(hv.2 e he).1, (hv.2 e he).2.1⟩) (k - 1) hi
      rw [show k - 1 + 1 = k from by omega, hg] at hfold
      exact hfold
    rw [if_pos ?_]
    · rw [show k - 0 - 1 = k - 1 from by omega, hsk, ← hvk.2.2.1]
    · refine ⟨by omega, by omega, by omega, ?_⟩
      rw [show k - 0 - 1 = k - 1 from by omega, hsk, ← hvk.2.2.1]
      exact fun h => hvk.2.2.2 h.symm
  | none =>
    rw [if_neg]
    rintro ⟨h1, h2, h3, h4⟩
    have hi : k - 1 < g.reference.length := by omega
    have hfold := toSeqFold_getD g.mutations g.reference hv.1
      (fun e he => ⟨(hv.2 e he).1, (hv.2 e he).2.1⟩) (k - 1) hi
    rw [show k - 1 + 1 = k from by omega, hg] at hfold
    rw [show k - 0 - 1 = k - 1 from by omega] at h4
    exact h4 hfold.symm

theorem claim_C7_witness :
    cgValid ⟨[(2, ('A', 'C'))], ['A', 'A', 'A', 'A']⟩ ∧
    cgEqb (compact_genome_from_sequence
        (CompactGenome.toSequence ⟨[(2, ('A', 'C'))], ['A', 'A', 'A', 'A']⟩)
        (⟨[(2, ('A', 'C'))], ['A', 'A', 'A', 'A']⟩ : CompactGenome).reference)
      ⟨[(2, ('A', 'C'))], ['A', 'A', 'A', 'A']⟩ = true :=
  ⟨by decide, claim_C7 ⟨[(2, ('A', 'C'))], ['A', 'A', 'A', 'A']⟩ (by decide)⟩

theorem filterMap_length_eq_countP {α β : Type} (f : α → Option β) (l : List α) :
    (l.filterMap f).length = l.countP (fun x => (f x).isSome) := by
  induction l with
  | nil => rfl
  | cons x xs ih =>
    rw [List.filterMap_cons, List.countP_cons]
    cases hf : f x with
    | none => simp [hf, ih]
    | some v => simp [hf, ih]

theorem nodup_countP_toFinset (p : Nat → Bool) :
    ∀ (l : List Nat), l.Nodup →
      l.countP p = (l.toFinset.filter (fun k => p k = true)).card := by
  intro l
  induction l with
  | nil => intro _; simp
  | cons x xs ih =>
    intro hl
    rw [List.nodup_cons] at hl
    rw [List.countP_cons, List.toFinset_cons, Finset.filter_insert]
    by_cases hp : p x
    · rw [if_pos hp, if_pos hp, Finset.card_insert_of_not_mem
          (fun hmem => hl.1 (List.mem_toFinset.mp (Finset.mem_of_mem_filter x hmem))),
        ih hl.2]
    · rw [if_neg hp, if_neg hp, ih hl.2, Nat.add_zero]

theorem diffFun_isSome_left {a b : CompactGenome}
    (hta : ∀ e ∈ a.mutations, e.2.2 ≠ e.2.1) {k : Nat}
    (hA : k ∈ mutKeys a.mutations) (hB : k ∉ mutKeys b.mutations) :
    (diffFun a b k).isSome = true := by
  obtain ⟨v, hv⟩ := Option.isSome_iff_exists.mp (lookupMut_isSome_iff.mpr hA)
  obtain ⟨o, n⟩ := v
  have hBn : lookupMut k b.mutations = none := lookupMut_eq_none_iff.mpr hB
  have hne : n ≠ o := by
    have := hta _ (lookupMut_mem hv)
    simpa using this
  simp [diffFun, hv, hBn, hne]

theorem diffFun_isSome_right {a b : CompactGenome}
    (htb : ∀ e ∈ b.mutations, e.2.2 ≠ e.2.1) {k : Nat}
    (hA : k ∉ mutKeys a.mutations) (hB : k ∈ mutKeys b.mutations) :
    (diffFun a b k).isSome = true := by
  obtain ⟨v, hv⟩ := Option.isSome_iff_exists.mp (lookupMut_isSome_iff.mpr hB)
  obtain ⟨o, n⟩ := v
  have hAn : lookupMut k a.mutations = none := lookupMut_eq_none_iff.mpr hA
  have hne : n ≠ o := by
    have := htb _ (lookupMut_mem hv)
    simpa using this
  have hne' : o ≠ n := fun h => hne h.symm
  simp [diffFun, hv, hAn, hne']

theorem diffFun_isSome_both {a b : CompactGenome} {k : Nat} {o1 n1 o2 n2 : Base}
    (hA : lookupMut k a.mutations = some (o1, n1))
    (hB : lookupMut k b.mutations = some (o2, n2)) :
    ((diffFun a b k).isSome = true) ↔ n1 ≠ n2 := by
  by_cases hn : n1 = n2 <;> simp [diffFun, hA, hB, hn]

theorem hamming_eq_diff_length (a b : CompactGenome)
    (hna : keysNodup a.mutations) (hnb : keysNodup b.mutations)
    (hr : a.reference = b.reference)
    (hta : ∀ e ∈ a.mutations, e.2.2 ≠ e.2.1)
    (htb : ∀ e ∈ b.mutations, e.2.2 ≠ e.2.1) :
    cg_hamming_distance a b = some (cg_diff a b).length := by
  classical
  have hna' : (mutKeys a.mutations).Nodup := hna
  have hnb' : (mutKeys b.mutations).Nodup := hnb
  have hHam : cg_hamming_distance a b =
      some (((mutKeys a.mutations).filter (fun k => decide (k ∉ mutKeys b.mutations))).length
        + ((mutKeys b.mutations).filter (fun k => decide (k ∉ mutKeys a.mutations))).length
        + (((mutKeys a.mutations).filter (fun k => decide (k ∈ mutKeys b.mutations))).filter
            (fun k => decide ((lookupMut k a.mutations).map (·.2)
              ≠ (lookupMut k b.mutations).map (·.2)))).length) := by
    rw [cg_hamming_distance, if_pos hr]
    simp only [List.Nodup.dedup hna', List.Nodup.dedup hnb']
  have hU : (unionKeys a b).toFinset =
      (mutKeys a.mutations).toFinset ∪ (mutKeys b.mutations).toFinset := by
    ext k
    simp [mem_unionKeys]
  have hDiff : (cg_diff a b).length =
      (((mutKeys a.mutations).toFinset ∪ (mutKeys b.mutations).toFinset).filter
        (fun k => (diffFun a b k).isSome = true)).card := by
    rw [cg_diff, filterMap_length_eq_countP,
      nodup_countP_toFinset _ _ (unionKeys_nodup a b), hU]
  have hX : ((mutKeys a.mutations).filter (fun k => decide (k ∉ mutKeys b.mutations))).length
      = ((mutKeys a.mutations).toFinset.filter
          (fun k => (decide (k ∉ mutKeys b.mutations)) = true)).card := by
    rw [← List.countP_eq_length_filter, nodup_countP_toFinset _ _ hna']
  have hY : ((mutKeys b.mutations).filter (fun k => decide (k ∉ mutKeys a.mutations))).length
      = ((mutKeys b.mutations).toFinset.filter
          (fun k => (decide (k ∉ mutKeys a.mutations)) = true)).card := by
    rw [← List.countP_eq_length_filter, nodup_countP_toFinset _ _ hnb']
  have hZ : (((mutKeys a.mutations).filter (fun k => decide (k ∈ mutKeys b.mutations))).filter
        (fun k => decide ((lookupMut k a.mutations).map (·.2)
          ≠ (lookupMut k b.mutations).map (·.2)))).length
      = ((mutKeys a.mutations).toFinset.filter
          (fun k => ((decide ((lookupMut k a.mutations).map (·.2)
              ≠ (lookupMut k b.mutations).map (·.2)))
            && (decide (k ∈ mutKeys b.mutations))) = true)).card := by
    rw [← List.countP_eq_length_filter, List.countP_filter,
      nodup_countP_toFinset _ _ hna']
  have hset : (((mutKeys a.mutations).toFinset ∪ (mutKeys b.mutations).toFinset).filter
        (fun k => (diffFun a b k).isSome = true)) =
      ((mutKeys a.mutations).toFinset.filter
          (fun k => (decide (k ∉ mutKeys b.mutations)) = true)) ∪
        (((mutKeys b.mutations).toFinset.filter
            (fun k => (decide (k ∉ mutKeys a.mutations)) = true)) ∪
          ((mutKeys a.mutations).toFinset.filter
            (fun k => ((decide ((lookupMut k a.mutations).map (·.2)
                ≠ (lookupMut k b.mutations).map (·.2)))
              && (decide (k ∈ mutKeys b.mutations))) = true))) := by
    ext k
    simp only [Finset.mem_filter, Finset.mem_union, List.mem_toFinset,
      decide_eq_true_iff, Bool.and_eq_true]
    by_cases hka : k ∈ mutKeys a.mutations <;> by_cases hkb : k ∈ mutKeys b.mutations
    · obtain ⟨v1, hv1⟩ := Option.isSome_iff_exists.mp (lookupMut_isSome_iff.mpr hka)
      obtain ⟨o1, n1⟩ := v1
      obtain ⟨v2, hv2⟩ := Option.isSome_iff_exists.mp (lookupMut_isSome_iff.mpr hkb)
      obtain ⟨o2, n2⟩ := v2
      constructor
      · rintro ⟨-, hsome⟩
        have hne := (diffFun_isSome_both hv1 hv2).mp hsome
        refine Or.inr (Or.inr ⟨hka, ?_, hkb⟩)
        rw [hv1, hv2]
        simpa using hne
      · rintro (⟨-, hc⟩ | ⟨-, hc⟩ | ⟨-, hc, -⟩)
        · exact absurd hkb hc
        · exact absurd hka hc
        · refine ⟨Or.inl hka, (diffFun_isSome_both hv1 hv2).mpr ?_⟩
          rw [hv1, hv2] at hc
          simpa using hc
    · constructor
      · rintro ⟨-, -⟩
        exact Or.inl ⟨hka, hkb⟩
      · rintro -
        exact ⟨Or.inl hka, diffFun_isSome_left hta hka hkb⟩
    · constructor
      · rintro ⟨-, -⟩
        exact Or.inr (Or.inl ⟨hkb, hka⟩)
      · rintro -
        exact ⟨Or.inr hkb, diffFun_isSome_right htb hka hkb⟩
    · constructor
      · rintro ⟨(h | h), -⟩
        · exact absurd h hka
        · exact absurd h hkb
      · rintro (⟨h, -⟩ | ⟨h, -⟩ | ⟨h, -, -⟩)
        · exact absurd h hka
        · exact absurd h hkb
        · exact absurd h hka
  have hd1 : Disjoint
      ((mutKeys b.mutations).toFinset.filter
        (fun k => (decide (k ∉ mutKeys a.mutations)) = true))
      ((mutKeys a.mutations).toFinset.filter
        (fun k => ((decide ((lookupMut k a.mutations).map (·.2)
            ≠ (lookupMut k b.mutations).map (·.2)))
          && (decide (k ∈ mutKeys b.mutations))) = true)) := by
    rw [Finset.disjoint_left]
    intro k hk1 hk2
    simp only [Finset.mem_filter, List.mem_toFinset, decide_eq_true_iff,
      Bool.and_eq_true] at hk1 hk2
    exact hk1.2 hk2.1
  have hd2 : Disjoint
      ((mutKeys a.mutations).toFinset.filter
        (fun k => (decide (k ∉ mutKeys b.mutations)) = true))
      (((mutKeys b.mutations).toFinset.filter
          (fun k => (decide (k ∉ mutKeys a.mutations)) = true)) ∪
        ((mutKeys a.mutations).toFinset.filter
          (fun k => ((decide ((lookupMut k a.mutations).map (·.2)
              ≠ (lookupMut k b.mutations).map (·.2)))
            && (decide (k ∈ mutKeys b.mutations))) = true))) := by
    rw [Finset.disjoint_left]
    intro k hk1 hk2
    simp only [Finset.mem_filter, Finset.mem_union, List.mem_toFinset,
      decide_eq_true_iff, Bool.and_eq_true] at hk1 hk2
    rcases hk2 with ⟨-, h2⟩ | ⟨-, -, h2⟩
    · exact h2 hk1.1
    · exact hk1.2 h2
  rw [hHam, hDiff, hset, Finset.card_union_of_disjoint hd2,
    Finset.card_union_of_disjoint hd1]
  refine congrArg some ?_
  rw [hX, hY, hZ]
  omega

theorem unionKeys_sorted (a b : CompactGenome) :
    List.Sorted (· ≤ ·) (unionKeys a b) :=
  List.sorted_insertionSort _ _

theorem unionKeys_comm (a b : CompactGenome) : unionKeys a b = unionKeys b a := by
  have h3 : ((mutKeys a.mutations ++ mutKeys b.mutations).dedup).Perm
      ((mutKeys b.mutations ++ mutKeys a.mutations).dedup) :=
    List.perm_of_nodup_nodup_toFinset_eq (List.nodup_dedup _) (List.nodup_dedup _) (by
      ext k
      simp only [List.mem_toFinset, List.mem_dedup, List.mem_append]
      exact Or.comm)
  exact List.eq_of_perm_of_sorted
    ((List.perm_insertionSort _ _).trans (h3.trans (List.perm_insertionSort _ _).symm))
    (unionKeys_sorted a b) (unionKeys_sorted b a)

theorem diffFun_isSome_comm (a b : CompactGenome) (k : Nat) :
    (diffFun a b k).isSome = (diffFun b a k).isSome := by
  cases hA : lookupMut k a.mutations with
  | some p1 =>
    obtain ⟨o1, n1⟩ := p1
    cases hB : lookupMut k b.mutations with
    | some p2 =>
      obtain ⟨o2, n2⟩ := p2
      by_cases hn : n1 = n2
      · subst hn
        simp [diffFun, hA, hB]
      · have hn' : ¬n2 = n1 := fun h => hn h.symm
        simp [diffFun, hA, hB, hn, hn']
    | none =>
      by_cases hn : n1 = o1
      · subst hn
        simp [diffFun, hA, hB]
      · have hn' : ¬o1 = n1 := fun h => hn h.symm
        simp [diffFun, hA, hB, hn, hn']
  | none =>
    cases hB : lookupMut k b.mutations with
    | some p2 =>
      obtain ⟨o2, n2⟩ := p2
      by_cases hn : o2 = n2
      · subst hn
        simp [diffFun, hA, hB]
      · have hn' : ¬n2 = o2 := fun h => hn h.symm
        simp [diffFun, hA, hB, hn, hn']
    | none => simp [diffFun, hA, hB]

theorem cg_diff_length_comm (a b : CompactGenome) :
    (cg_diff a b).length = (cg_diff b a).length := by
  rw [cg_diff, cg_diff, filterMap_length_eq_countP, filterMap_length_eq_countP,
    unionKeys_comm a b]
  exact List.countP_congr (fun k _ => by rw [diffFun_isSome_comm])

/-- C10 as stated is false: with equal references and every recorded old base
agreeing with the reference, a trivial entry (position mapped to its own
base) is counted by `cg_hamming_distance` but yields no mutation in
`cg_diff`. -/
theorem claim_C10_counterexample :
    (⟨[(1, ('A', 'A'))], ['A']⟩ : CompactGenome).reference =
      (⟨[], ['A']⟩ : CompactGenome).reference ∧
    (∀ e ∈ (⟨[(1, ('A', 'A'))], ['A']⟩ : CompactGenome).mutations,
      e.2.1 = (⟨[(1, ('A', 'A'))], ['A']⟩ : CompactGenome).reference.getD (e.1 - 1) 'A') ∧
    cg_hamming_distance ⟨[(1, ('A', 'A'))], ['A']⟩ ⟨[], ['A']⟩ ≠
      some (cg_diff ⟨[(1, ('A', 'A'))], ['A']⟩ ⟨[], ['A']⟩).length := by decide

/-- C10 amended: additionally requiring that no entry maps a position to its
own recorded base (the data-model invariant spec §3 (b)), the hamming
distance equals the number of mutations yielded by `cg_diff`, and it is
symmetric. -/
theorem claim_C10 (a b : CompactGenome)
    (hna : keysNodup a.mutations) (hnb : keysNodup b.mutations)
    (hr : a.reference = b.reference)
    (hoa : ∀ e ∈ a.mutations, e.2.1 = a.reference.getD (e.1 - 1) 'A')
    (hob : ∀ e ∈ b.mutations, e.2.1 = b.reference.getD (e.1 - 1) 'A')
    (hta : ∀ e ∈ a.mutations, e.2.2 ≠ e.2.1)
    (htb : ∀ e ∈ b.mutations, e.2.2 ≠ e.2.1) :
    cg_hamming_distance a b = some (cg_diff a b).length ∧
    cg_hamming_distance a b = cg_hamming_distance b a := by
  refine ⟨hamming_eq_diff_length a b hna hnb hr hta htb, ?_⟩
  rw [hamming_eq_diff_length a b hna hnb hr hta htb,
    hamming_eq_diff_length b a hnb hna hr.symm htb hta, cg_diff_length_comm]

theorem claim_C10_witness :
    keysNodup (⟨[(1, ('A', 'C'))], ['A']⟩ : CompactGenome).mutations ∧
    (∀ e ∈ (⟨[(1, ('A', 'C'))], ['A']⟩ : CompactGenome).mutations, e.2.2 ≠ e.2.1) ∧
    (cg_hamming_distance ⟨[(1, ('A', 'C'))], ['A']⟩ ⟨[], ['A']⟩ =
        some (cg_diff ⟨[(1, ('A', 'C'))], ['A']⟩ ⟨[], ['A']⟩).length ∧
      cg_hamming_distance ⟨[(1, ('A', 'C'))], ['A']⟩ ⟨[], ['A']⟩ =
        cg_hamming_distance ⟨[], ['A']⟩ ⟨[(1, ('A', 'C'))], ['A']⟩) :=
  ⟨by decide, by decide,
    claim_C10 ⟨[(1, ('A', 'C'))], ['A']⟩ ⟨[], ['A']⟩ (by decide) (by decide) (by decide)
      (by decide) (by decide) (by decide) (by decide)⟩

theorem mutsBeq_self {m : MutList} (h : keysNodup m) : mutsBeq m m = true := by
  rw [mutsBeq_iff h h]
  intro k
  rfl

theorem labelBeq_self {l : CGLabel} (h : ∀ cg ∈ l.cgOf, keysNodup cg.mutations) :
    labelBeq l l = true := by
  cases l with
  | ua => rfl
  | node cg i =>
    have hcg : keysNodup cg.mutations := h cg rfl
    simp [labelBeq, cgEqb, mutsBeq_self hcg]

theorem getD_map_lt {α β : Type} (f : α → β) (l : List α) (j : Nat) (hj : j < l.length)
    (d : β) (d' : α) : (l.map f).getD j d = f (l.getD j d') := by
  rw [List.getD_eq_getElem?_getD, List.getD_eq_getElem?_getD,
    List.getElem?_eq_getElem (by simpa using hj), List.getElem?_eq_getElem hj,
    List.getElem_map]
  rfl

theorem buildCgAux_append (s : Bool) (xs ys : List DagNode) :
    ∀ (idxs : List (CGLabel × Nat)) (cgl : List MutList),
      buildCgAux s (xs ++ ys) idxs cgl =
        buildCgAux s ys (buildCgAux s xs idxs cgl).1 (buildCgAux s xs idxs cgl).2 := by
  induction xs with
  | nil =>
    intro idxs cgl
    rfl
  | cons nd rest ih =>
    intro idxs cgl
    rw [List.cons_append, buildCgAux, buildCgAux]
    by_cases hf : (idxs.find? (fun p => labelBeq p.1 nd.label)).isSome = true
    · rw [if_pos hf, if_pos hf, ih]
    · rw [if_neg hf, if_neg hf, ih]

theorem buildCgAux_extends (s : Bool) :
    ∀ (nodes : List DagNode) (idxs : List (CGLabel × Nat)) (cgl : List MutList),
      (∃ i2, (buildCgAux s nodes idxs cgl).1 = idxs ++ i2) ∧
      (∃ c2, (buildCgAux s nodes idxs cgl).2 = cgl ++ c2) := by
  intro nodes
  induction nodes with
  | nil =>
    intro idxs cgl
    exact ⟨⟨[], by simp [buildCgAux]⟩, ⟨[], by simp [buildCgAux]⟩⟩
  | cons nd rest ih =>
    intro idxs cgl
    rw [buildCgAux]
    by_cases hf : (idxs.find? (fun p => labelBeq p.1 nd.label)).isSome = true
    · rw [if_pos hf]
      exact ih idxs cgl
    · rw [if_neg hf]
      obtain ⟨⟨i2, hi⟩, ⟨c2, hc⟩⟩ :=
        ih (idxs ++ [(nd.label, cgl.length)]) (cgl ++ [encodeCG s nd.label])
      exact ⟨⟨(nd.label, cgl.length) :: i2, by rw [hi, List.append_assoc]; rfl⟩,
        ⟨encodeCG s nd.label :: c2, by rw [hc, List.append_assoc]; rfl⟩⟩

theorem buildCgAux_spec (s : Bool) :
    ∀ (nodes : List DagNode) (idxs : List (CGLabel × Nat)) (cgl : List MutList),
      (∀ nd ∈ nodes, labelBeq nd.label nd.label = true) →
      idxs.length = cgl.length →
      (∀ j < idxs.length, (idxs.getD j (.ua, 0)).2 = j) →
      (∀ j < idxs.length, cgl.getD j [] = encodeCG s (idxs.getD j (.ua, 0)).1) →
      List.Pairwise (fun p q => labelBeq p.1 q.1 = false) idxs →
      ((buildCgAux s nodes idxs cgl).1.length = (buildCgAux s nodes idxs cgl).2.length ∧
        (∀ j < (buildCgAux s nodes idxs cgl).1.length,
          ((buildCgAux s nodes idxs cgl).1.getD j (.ua, 0)).2 = j) ∧
        (∀ j < (buildCgAux s nodes idxs cgl).1.length,
          (buildCgAux s nodes idxs cgl).2.getD j []
            = encodeCG s ((buildCgAux s nodes idxs cgl).1.getD j (.ua, 0)).1) ∧
        (∀ p ∈ (buildCgAux s nodes idxs cgl).1,
          p ∈ idxs ∨ ∃ nd ∈ nodes, p.1 = nd.label) ∧
        (∀ nd ∈ nodes, ∃ p ∈ (buildCgAux s nodes idxs cgl).1,
          labelBeq p.1 nd.label = true) ∧
        List.Pairwise (fun p q => labelBeq p.1 q.1 = false)
          (buildCgAux s nodes idxs cgl).1) := by
  intro nodes
  induction nodes with
  | nil =>
    intro idxs cgl _ hlen hidx hcnt hpw
    refine ⟨hlen, hidx, hcnt, fun p hp => Or.inl hp, fun nd hnd => absurd hnd
      (List.not_mem_nil _), hpw⟩
  | cons nd rest ih =>
    intro idxs cgl hrefl hlen hidx hcnt hpw
    rw [buildCgAux]
    by_cases hf : (idxs.find? (fun p => labelBeq p.1 nd.label)).isSome = true
    · rw [if_pos hf]
      obtain ⟨hL, hIDX, hCNT, hSRC, hCOV, hPW⟩ :=
        ih idxs cgl (fun nd' hnd' => hrefl nd' (List.mem_cons_of_mem _ hnd'))
          hlen hidx hcnt hpw
      refine ⟨hL, hIDX, hCNT, ?_, ?_, hPW⟩
      · intro p hp
        rcases hSRC p hp with h | ⟨nd', hnd', h⟩
        · exact Or.inl h
        · exact Or.inr ⟨nd', List.mem_cons_of_mem _ hnd', h⟩
      · intro nd' hnd'
        rcases List.mem_cons.mp hnd' with h | h
        · obtain ⟨q, hq⟩ := Option.isSome_iff_exists.mp hf
          obtain ⟨i2, hi2⟩ := (buildCgAux_extends s rest idxs cgl).1
          have hqmem : q ∈ (buildCgAux s rest idxs cgl).1 := by
            rw [hi2]
            exact List.mem_append_left _ (List.mem_of_find?_eq_some hq)
          refine ⟨q, hqmem, ?_⟩
          rw [h]
          have := List.find?_some hq
          simpa using this
        · exact hCOV nd' h
    · rw [if_neg hf]
      have hnone : idxs.find? (fun p => labelBeq p.1 nd.label) = none :=
        Option.not_isSome_iff_eq_none.mp hf
      have hnobeq : ∀ p ∈ idxs, labelBeq p.1 nd.label = false := by
        intro p hp
        have := List.find?_eq_none.mp hnone p hp
        simpa using this
      have hlen' : (idxs ++ [(nd.label, cgl.length)]).length
          = (cgl ++ [encodeCG s nd.label]).length := by
        simp [hlen]
      have hidx' : ∀ j < (idxs ++ [(nd.label, cgl.length)]).length,
          ((idxs ++ [(nd.label, cgl.length)]).getD j (.ua, 0)).2 = j := by
        intro j hj
        rw [List.length_append, List.length_singleton] at hj
        by_cases hjl : j < idxs.length
        · rw [List.getD_append _ _ _ _ hjl]
          exact hidx j hjl
        · have hje : j = idxs.length := by omega
          rw [List.getD_append_right _ _ _ _ (by omega), hje, Nat.sub_self]
          simpa using hlen.symm
      have hcnt' : ∀ j < (idxs ++ [(nd.label, cgl.length)]).length,
          (cgl ++ [encodeCG s nd.label]).getD j []
            = encodeCG s ((idxs ++ [(nd.label, cgl.length)]).getD j (.ua, 0)).1 := by
        intro j hj
        rw [List.length_append, List.length_singleton] at hj
        by_cases hjl : j < idxs.length
        · rw [List.getD_append _ _ _ _ hjl, List.getD_append _ _ _ _ (by omega)]
          exact hcnt j hjl
        · have hje : j = idxs.length := by omega
          rw [List.getD_append_right _ _ _ _ (by omega),
            List.getD_append_right _ _ _ _ (by omega), hje, Nat.sub_self, hlen,
            Nat.sub_self]
          rfl
      have hpw' : List.Pairwise (fun p q => labelBeq p.1 q.1 = false)
          (idxs ++ [(nd.label, cgl.length)]) := by
        rw [List.pairwise_append]
        refine ⟨hpw, List.pairwise_singleton _ _, ?_⟩
        intro p hp q hq
        rw [List.mem_singleton.mp hq]
        exact hnobeq p hp
      obtain ⟨hL, hIDX, hCNT, hSRC, hCOV, hPW⟩ :=
        ih (idxs ++ [(nd.label, cgl.length)]) (cgl ++ [encodeCG s nd.label])
          (fun nd' hnd' => hrefl nd' (List.mem_cons_of_mem _ hnd'))
          hlen' hidx' hcnt' hpw'
      refine ⟨hL, hIDX, hCNT, ?_, ?_, hPW⟩
      · intro p hp
        rcases hSRC p hp with h | ⟨nd', hnd', h⟩
        · rcases List.mem_append.mp h with h2 | h2
          · exact Or.inl h2
          · refine Or.inr ⟨nd, List.mem_cons_self _ _, ?_⟩
            rw [List.mem_singleton.mp h2]
        · exact Or.inr ⟨nd', List.mem_cons_of_mem _ hnd', h⟩
      · intro nd' hnd'
        rcases List.mem_cons.mp hnd' with h | h
        · obtain ⟨i2, hi2⟩ :=
            (buildCgAux_extends s rest (idxs ++ [(nd.label, cgl.length)])
              (cgl ++ [encodeCG s nd.label])).1
          refine ⟨(nd.label, cgl.length), ?_, ?_⟩
          · rw [hi2]
            exact List.mem_append_left _
              (List.mem_append_right _ (List.mem_singleton_self _))
          · rw [h]
            exact hrefl nd (List.mem_cons_self _ _)
        · exact hCOV nd' h

theorem encodeCG_false (l : CGLabel) : encodeCG false l = l.cgMuts := by
  cases l <;> rfl

theorem entryLt_le {e1 e2 : Nat × Base × Base} (h : entryLt e1 e2 = true) :
    entryLe e1 e2 = true := by
  simp [entryLe, h]

theorem encodeCG_sorted {l : CGLabel} (h : cgSortedLabel l) :
    encodeCG true l = l.cgMuts := by
  cases l with
  | ua => rfl
  | node cg i =>
    have h' : List.Pairwise (fun e1 e2 => entryLt e1 e2 = true) cg.mutations := h
    have hs : List.Sorted (fun e1 e2 => entryLe e1 e2 = true) cg.mutations :=
      List.Pairwise.imp (fun hlt => entryLt_le hlt) h'
    simpa [encodeCG, CGLabel.cgMuts] using hs.insertionSort_eq

theorem labelBeq_ua_right {l : CGLabel} : labelBeq l .ua = true ↔ l = .ua := by
  cases l <;> simp [labelBeq]

theorem labelBeq_ua_left {l : CGLabel} : labelBeq .ua l = true ↔ l = .ua := by
  cases l <;> simp [labelBeq]

theorem perm_keysNodup {m1 m2 : MutList} (hp : m1.Perm m2) (h : keysNodup m1) :
    keysNodup m2 := by
  have h' : (m1.map (·.1)).Nodup := h
  exact (hp.map (·.1)).nodup h'

theorem perm_lookupMut_eq {m1 m2 : MutList} (hp : m1.Perm m2) (h1 : keysNodup m1)
    (k : Nat) : lookupMut k m1 = lookupMut k m2 := by
  have h2 : keysNodup m2 := perm_keysNodup hp h1
  cases hv : lookupMut k m1 with
  | some v =>
    have hm : (k, v) ∈ m2 := hp.mem_iff.mp (lookupMut_mem hv)
    rw [mem_lookupMut h2 hm]
  | none =>
    have hk : k ∉ mutKeys m1 := lookupMut_eq_none_iff.mp hv
    have hk2 : k ∉ mutKeys m2 := by
      intro hm
      exact hk ((hp.map (·.1)).mem_iff.mpr hm)
    rw [lookupMut_eq_none_iff.mpr hk2]

theorem perm_mutsBeq {m1 m2 : MutList} (hp : m1.Perm m2) (h1 : keysNodup m1) :
    mutsBeq m1 m2 = true := by
  rw [mutsBeq_iff h1 (perm_keysNodup hp h1)]
  exact perm_lookupMut_eq hp h1

theorem flattenDag_nodes (g : Dag) (sc : Bool) :
    (flattenDag g sc).nodes = g.nodes.map (fun nd =>
      (cgIndexOf (flatIdxs g sc) nd.label,
        nd.clades.map (fun c => c.1.image (cgIndexOf (flatIdxs g sc))))) := by
  cases sc <;> rfl

theorem flattenDag_cgs (g : Dag) (sc : Bool) :
    (flattenDag g sc).compactGenomes = flatCgl g sc := by
  cases sc <;> rfl

theorem flattenDag_edges (g : Dag) (sc : Bool) :
    (flattenDag g sc).edges = flattenEdges 0 g.nodes := rfl

theorem flattenDag_refseq (g : Dag) (sc : Bool) :
    (flattenDag g sc).refseq = g.getReferenceSequence := rfl

theorem cgIndexOf_spec (s : Bool) (nodes : List DagNode)
    (hrefl : ∀ nd ∈ nodes, labelBeq nd.label nd.label = true)
    (hcanon : ∀ nd ∈ nodes, ∀ nd' ∈ nodes,
      labelBeq nd.label nd'.label = true → nd.label = nd'.label)
    (l : CGLabel) (hl : ∃ nd ∈ nodes, nd.label = l) :
    cgIndexOf (buildCgAux s nodes [] []).1 l < (buildCgAux s nodes [] []).2.length ∧
    ((buildCgAux s nodes [] []).1.getD (cgIndexOf (buildCgAux s nodes [] []).1 l)
      (.ua, 0)).1 = l ∧
    (buildCgAux s nodes [] []).2.getD (cgIndexOf (buildCgAux s nodes [] []).1 l) []
      = encodeCG s l ∧
    ((buildCgAux s nodes [] []).1.find? (fun p => labelBeq p.1 l)).isSome := by
  obtain ⟨nd, hnd, rfl⟩ := hl
  obtain ⟨hL, hIDX, hCNT, hSRC, hCOV, hPW⟩ :=
    buildCgAux_spec s nodes [] [] hrefl rfl
      (fun j hj => absurd hj (Nat.not_lt_zero j))
      (fun j hj => absurd hj (Nat.not_lt_zero j)) List.Pairwise.nil
  obtain ⟨p, hp, hbeq⟩ := hCOV nd hnd
  have hfs : ((buildCgAux s nodes [] []).1.find?
      (fun p => labelBeq p.1 nd.label)).isSome := by
    rw [List.find?_isSome]
    exact ⟨p, hp, hbeq⟩
  obtain ⟨q, hq⟩ := Option.isSome_iff_exists.mp hfs
  have hidx_eq : cgIndexOf (buildCgAux s nodes [] []).1 nd.label = q.2 := by
    simp only [cgIndexOf, hq]
    rfl
  have hqmem : q ∈ (buildCgAux s nodes [] []).1 := List.mem_of_find?_eq_some hq
  have hqpred : labelBeq q.1 nd.label = true := by
    have := List.find?_some hq
    simpa using this
  obtain ⟨j, hj, hje⟩ := List.getElem_of_mem hqmem
  have hgd : (buildCgAux s nodes [] []).1.getD j (.ua, 0) = q := by
    rw [List.getD_eq_getElem _ _ hj, hje]
  have hq2 : q.2 = j := by
    have := hIDX j hj
    rw [hgd] at this
    exact this
  have hq1 : q.1 = nd.label := by
    rcases hSRC q hqmem with h | ⟨nd', hnd', h⟩
    · exact absurd h (List.not_mem_nil q)
    · rw [h] at hqpred ⊢
      exact hcanon nd' hnd' nd hnd hqpred
  refine ⟨?_, ?_, ?_, hfs⟩
  · rw [hidx_eq, hq2, ← hL]
    exact hj
  · rw [hidx_eq, hq2, hgd, hq1]
  · have := hCNT j hj
    rw [hgd, hq1] at this
    rw [hidx_eq, hq2, this]

theorem sortRemap_lookup (cgl : List MutList) (j : Nat) (hj : j < cgl.length) :
    (sortRemap cgl).findIdx (fun q => q.1 == j) < (sortRemap cgl).length ∧
    ((sortRemap cgl).map (·.2)).getD ((sortRemap cgl).findIdx (fun q => q.1 == j)) []
      = cgl.getD j [] := by
  have hperm : (sortRemap cgl).Perm cgl.enum := List.perm_insertionSort _ _
  have hmem : ((j, cgl.getD j []) : Nat × MutList) ∈ cgl.enum := by
    rw [List.mem_enum_iff_getElem?]
    rw [List.getD_eq_getElem _ _ hj]
    exact List.getElem?_eq_getElem hj
  have hmem_se : ((j, cgl.getD j []) : Nat × MutList) ∈ sortRemap cgl :=
    hperm.mem_iff.mpr hmem
  have hlt : (sortRemap cgl).findIdx (fun q => q.1 == j) < (sortRemap cgl).length :=
    List.findIdx_lt_length_of_exists ⟨(j, cgl.getD j []), hmem_se, by simp⟩
  refine ⟨hlt, ?_⟩
  have hpred : ((sortRemap cgl).get
      ⟨(sortRemap cgl).findIdx (fun q => q.1 == j), hlt⟩).1 == j := by
    have := @List.findIdx_getElem _ (fun q => q.1 == j) (sortRemap cgl) hlt
    simpa using this
  have hpred' : ((sortRemap cgl).get
      ⟨(sortRemap cgl).findIdx (fun q => q.1 == j), hlt⟩).1 = j := by
    simpa using hpred
  have hmm : (sortRemap cgl).get
      ⟨(sortRemap cgl).findIdx (fun q => q.1 == j), hlt⟩ ∈ cgl.enum :=
    hperm.mem_iff.mp (List.get_mem _ _ hlt)
  have hval : cgl[((sortRemap cgl).get
      ⟨(sortRemap cgl).findIdx (fun q => q.1 == j), hlt⟩).1]?
      = some ((sortRemap cgl).get
        ⟨(sortRemap cgl).findIdx (fun q => q.1 == j), hlt⟩).2 :=
    List.mem_enum_iff_getElem?.mp hmm
  rw [hpred'] at hval
  have hv2 : ((sortRemap cgl).get
      ⟨(sortRemap cgl).findIdx (fun q => q.1 == j), hlt⟩).2 = cgl.getD j [] := by
    rw [List.getElem?_eq_getElem hj] at hval
    rw [List.getD_eq_getElem _ _ hj]
    exact (Option.some_injective _ hval).symm
  rw [List.getD_eq_getElem _ _ (by simpa using hlt), List.getElem_map]
  rw [← hv2]
  rfl

theorem cgIndexOf_map_remap (idxs : List (CGLabel × Nat)) (F : Nat → Nat) (l : CGLabel) :
    cgIndexOf (idxs.map (fun p => (p.1, F p.2))) l
      = ((idxs.find? (fun p => labelBeq p.1 l)).map (fun p => F p.2)).getD 0 := by
  have hcomp : ((fun (p : CGLabel × Nat) => labelBeq p.1 l) ∘
      (fun (p : CGLabel × Nat) => (p.1, F p.2))) = fun p => labelBeq p.1 l := rfl
  simp only [cgIndexOf, List.find?_map, hcomp]
  cases idxs.find? (fun p => labelBeq p.1 l) <;> rfl

theorem flatIdxs_spec (g : Dag) (sc : Bool)
    (hrefl : ∀ nd ∈ g.nodes, labelBeq nd.label nd.label = true)
    (hcanon : ∀ nd ∈ g.nodes, ∀ nd' ∈ g.nodes,
      labelBeq nd.label nd'.label = true → nd.label = nd'.label)
    (l : CGLabel) (hl : ∃ nd ∈ g.nodes, nd.label = l) :
    cgIndexOf (flatIdxs g sc) l < (flatCgl g sc).length ∧
    (flatCgl g sc).getD (cgIndexOf (flatIdxs g sc) l) [] = encodeCG sc l := by
  obtain ⟨hlt, hlbl, hcnt, hfs⟩ := cgIndexOf_spec sc g.nodes hrefl hcanon l hl
  cases sc with
  | false => exact ⟨hlt, hcnt⟩
  | true =>
    obtain ⟨q, hq⟩ := Option.isSome_iff_exists.mp hfs
    have hq2 : q.2 = cgIndexOf (buildCgAux true g.nodes [] []).1 l := by
      simp only [cgIndexOf, hq]
      rfl
    show cgIndexOf ((buildCgAux true g.nodes [] []).1.map (fun p =>
        (p.1, (sortRemap (buildCgAux true g.nodes [] []).2).findIdx
          (fun q => q.1 == p.2)))) l
      < ((sortRemap (buildCgAux true g.nodes [] []).2).map (·.2)).length ∧
      ((sortRemap (buildCgAux true g.nodes [] []).2).map (·.2)).getD
        (cgIndexOf ((buildCgAux true g.nodes [] []).1.map (fun p =>
          (p.1, (sortRemap (buildCgAux true g.nodes [] []).2).findIdx
            (fun q => q.1 == p.2)))) l) [] = encodeCG true l
    rw [cgIndexOf_map_remap (buildCgAux true g.nodes [] []).1
      (fun j => (sortRemap (buildCgAux true g.nodes [] []).2).findIdx
        (fun q => q.1 == j)) l]
    rw [hq]
    obtain ⟨hslt, hscnt⟩ :=
      sortRemap_lookup (buildCgAux true g.nodes [] []).2
        (cgIndexOf (buildCgAux true g.nodes [] []).1 l) hlt
    constructor
    · rw [Option.map_some', Option.getD_some, hq2, List.length_map]
      exact hslt
    · rw [Option.map_some', Option.getD_some, hq2, hscnt]
      exact hcnt

theorem cladeEdges_bounds (i : Nat) :
    ∀ (clades : List (Finset CGLabel × List Nat)) (ci0 : Nat),
      ∀ e ∈ cladeEdges i ci0 clades, e.1 = i ∧ ci0 ≤ e.2.2 := by
  intro clades
  induction clades with
  | nil =>
    intro ci0 e he
    simp [cladeEdges] at he
  | cons c rest ih =>
    intro ci0 e he
    rw [cladeEdges] at he
    rcases List.mem_append.mp he with h | h
    · obtain ⟨t, ht, rfl⟩ := List.mem_map.mp h
      exact ⟨rfl, Nat.le_refl _⟩
    · obtain ⟨h1, h2⟩ := ih (ci0 + 1) e h
      exact ⟨h1, by omega⟩

theorem cladeEdges_filter (i : Nat) :
    ∀ (clades : List (Finset CGLabel × List Nat)) (ci0 ci : Nat),
      ((cladeEdges i ci0 clades).filter
        (fun e => e.1 == i && e.2.2 == ci0 + ci)).map (·.2.1)
        = (clades.getD ci (∅, [])).2 := by
  intro clades
  induction clades with
  | nil =>
    intro ci0 ci
    simp [cladeEdges]
  | cons c rest ih =>
    intro ci0 ci
    rw [cladeEdges, List.filter_append, List.map_append]
    cases ci with
    | zero =>
      have h1 : (c.2.map (fun t => (i, t, ci0))).filter
          (fun e => e.1 == i && e.2.2 == ci0 + 0)
          = c.2.map (fun t => (i, t, ci0)) := by
        rw [List.filter_map]
        have hcomp : ((fun (e : Nat × Nat × Nat) => e.1 == i && e.2.2 == ci0 + 0) ∘
            (fun (t : Nat) => (i, t, ci0))) = fun t => true := by
          funext t
          simp [Function.comp]
        rw [hcomp, List.filter_true]
      have h2 : (cladeEdges i (ci0 + 1) rest).filter
          (fun e => e.1 == i && e.2.2 == ci0 + 0) = [] := by
        rw [List.filter_eq_nil_iff]
        intro e he
        obtain ⟨he1, he2⟩ := cladeEdges_bounds i rest (ci0 + 1) e he
        simp only [Bool.and_eq_true, beq_iff_eq, not_and]
        intro _
        omega
      rw [h1, h2, List.map_nil, List.append_nil, List.map_map]
      have hcomp2 : ((fun (e : Nat × Nat × Nat) => e.2.1) ∘
          (fun (t : Nat) => (i, t, ci0))) = id := rfl
      rw [hcomp2, List.map_id, List.getD_cons_zero]
    | succ k =>
      have h1 : (c.2.map (fun t => (i, t, ci0))).filter
          (fun e => e.1 == i && e.2.2 == ci0 + (k + 1)) = [] := by
        rw [List.filter_eq_nil_iff]
        intro e he
        obtain ⟨t, ht, rfl⟩ := List.mem_map.mp he
        simp only [Bool.and_eq_true, beq_iff_eq, not_and]
        intro _
        omega
      have h3 : (fun (e : Nat × Nat × Nat) => e.1 == i && e.2.2 == ci0 + (k + 1))
          = fun e => e.1 == i && e.2.2 == (ci0 + 1) + k := by
        funext e
        have harith : ci0 + (k + 1) = (ci0 + 1) + k := by omega
        rw [harith]
      rw [h1, List.map_nil, List.nil_append, h3, ih (ci0 + 1) k, List.getD_cons_succ]

theorem flattenEdges_bounds :
    ∀ (nds : List DagNode) (i0 : Nat), ∀ e ∈ flattenEdges i0 nds, i0 ≤ e.1 := by
  intro nds
  induction nds with
  | nil =>
    intro i0 e he
    simp [flattenEdges] at he
  | cons nd rest ih =>
    intro i0 e he
    rw [flattenEdges] at he
    rcases List.mem_append.mp he with h | h
    · exact Nat.le_of_eq (cladeEdges_bounds i0 nd.clades 0 e h).1.symm
    · exact Nat.le_of_succ_le (ih (i0 + 1) e h)

theorem flattenEdges_filter :
    ∀ (nds : List DagNode) (i0 k ci : Nat),
      ((flattenEdges i0 nds).filter
        (fun e => e.1 == i0 + k && e.2.2 == ci)).map (·.2.1)
        = ((nds.getD k default).clades.getD ci (∅, [])).2 := by
  intro nds
  induction nds with
  | nil =>
    intro i0 k ci
    simp [flattenEdges]
    rfl
  | cons nd rest ih =>
    intro i0 k ci
    rw [flattenEdges, List.filter_append, List.map_append]
    cases k with
    | zero =>
      have h1 : (cladeEdges i0 0 nd.clades).filter
          (fun e => e.1 == i0 + 0 && e.2.2 == ci)
          = (cladeEdges i0 0 nd.clades).filter
            (fun e => e.1 == i0 && e.2.2 == 0 + ci) := by
        apply List.filter_congr
        intro e he
        rw [Nat.add_zero, Nat.zero_add]
      have h2 : (flattenEdges (i0 + 1) rest).filter
          (fun e => e.1 == i0 + 0 && e.2.2 == ci) = [] := by
        rw [List.filter_eq_nil_iff]
        intro e he
        have hb := flattenEdges_bounds rest (i0 + 1) e he
        simp only [Bool.and_eq_true, beq_iff_eq, not_and]
        intro hcon
        omega
      rw [h1, h2, List.map_nil, List.append_nil, cladeEdges_filter i0 nd.clades 0 ci,
        List.getD_cons_zero]
    | succ m =>
      have h1 : (cladeEdges i0 0 nd.clades).filter
          (fun e => e.1 == i0 + (m + 1) && e.2.2 == ci) = [] := by
        rw [List.filter_eq_nil_iff]
        intro e he
        have hb := (cladeEdges_bounds i0 nd.clades 0 e he).1
        simp only [Bool.and_eq_true, beq_iff_eq, not_and]
        intro hcon
        omega
      have h3 : (fun (e : Nat × Nat × Nat) => e.1 == i0 + (m + 1) && e.2.2 == ci)
          = fun e => e.1 == (i0 + 1) + m && e.2.2 == ci := by
        funext e
        have harith : i0 + (m + 1) = (i0 + 1) + m := by omega
        rw [harith]
      rw [h1, List.map_nil, List.nil_append, h3, ih (i0 + 1) m ci, List.getD_cons_succ]

theorem list_set_self {α : Type} (l : List α) (n : Nat) (h : n < l.length) :
    l.set n (l.get ⟨n, h⟩) = l := by
  apply List.ext_getElem
  · simp
  · intro i h1 h2
    rw [List.getElem_set]
    by_cases hni : n = i
    · subst hni
      rw [if_pos rfl]
      rfl
    · rw [if_neg hni]

theorem flattenEdges_filter_zero (nds : List DagNode) (k ci : Nat) :
    ((flattenEdges 0 nds).filter
      (fun e => e.1 == k && e.2.2 == ci)).map (·.2.1)
      = ((nds.getD k default).clades.getD ci (∅, [])).2 := by
  have h := flattenEdges_filter nds 0 k ci
  have hcong : (fun (e : Nat × Nat × Nat) => e.1 == 0 + k && e.2.2 == ci)
      = fun e => e.1 == k && e.2.2 == ci := by
    funext e
    rw [Nat.zero_add]
  rw [hcong] at h
  exact h

theorem unflattenDag_nodes_succ (f : FlatDag) (n : Nat)
    (h : (f.nodes.enum.map (unflatNode f)).length = n + 1) :
    (unflattenDag f).nodes = (f.nodes.enum.map (unflatNode f)).set n
      { (f.nodes.enum.map (unflatNode f)).getD n default with label := .ua } := by
  show (match (f.nodes.enum.map (unflatNode f)).length with
    | 0 => f.nodes.enum.map (unflatNode f)
    | k + 1 => (f.nodes.enum.map (unflatNode f)).set k
        { (f.nodes.enum.map (unflatNode f)).getD k default with label := .ua })
    = (f.nodes.enum.map (unflatNode f)).set n
      { (f.nodes.enum.map (unflatNode f)).getD n default with label := .ua }
  rw [h]

theorem dagWf_refl {g : Dag}
    (hlwf : ∀ nd ∈ g.nodes, labelWf g.getReferenceSequence nd.label) :
    ∀ nd ∈ g.nodes, labelBeq nd.label nd.label = true := by
  intro nd hnd
  apply labelBeq_self
  intro cg hcg
  have hl := hlwf nd hnd
  cases hnl : nd.label with
  | ua =>
    rw [hnl] at hcg
    simp [CGLabel.cgOf] at hcg
  | node cg' i =>
    rw [hnl] at hcg hl
    have hl' : i = none ∧ cg'.reference = g.getReferenceSequence ∧
        keysNodup cg'.mutations := hl
    have hcg' : cg' = cg := by
      simpa [CGLabel.cgOf] using hcg
    rw [← hcg']
    exact hl'.2.2

theorem DagNode.ext' {a b : DagNode} (h1 : a.label = b.label)
    (h2 : a.clades = b.clades) : a = b := by
  cases a
  cases b
  cases h1
  cases h2
  rfl

theorem unflatten_flatten_nodes (g : Dag) (sc : Bool) (hw : dagWf g)
    (hsort : sc = true → ∀ nd ∈ g.nodes, cgSortedLabel nd.label) :
    (unflattenDag (flattenDag g sc)).nodes = g.nodes := by
  obtain ⟨hne, hlast, hlastclades, hdrop, hlwf, hcl, hcanon⟩ := hw
  have hrefl : ∀ nd ∈ g.nodes, labelBeq nd.label nd.label = true :=
    dagWf_refl hlwf
  have hmk : ∀ l : CGLabel, (∃ nd ∈ g.nodes, nd.label = l) → l.isUa = false →
      CGLabel.node
        (⟨(flatCgl g sc).getD (cgIndexOf (flatIdxs g sc) l) [],
          g.getReferenceSequence⟩ : CompactGenome) none = l := by
    intro l hl hua
    obtain ⟨hlt, hcnt⟩ := flatIdxs_spec g sc hrefl hcanon l hl
    cases l with
    | ua => simp [CGLabel.isUa] at hua
    | node cg i =>
      obtain ⟨nd, hnd, hndl⟩ := hl
      have hwf := hlwf nd hnd
      rw [hndl] at hwf
      have hwf' : i = none ∧ cg.reference = g.getReferenceSequence ∧
          keysNodup cg.mutations := hwf
      have he : encodeCG sc (CGLabel.node cg i) = cg.mutations := by
        cases sc with
        | false => rfl
        | true =>
          have hs : cgSortedLabel (CGLabel.node cg i) := by
            have := hsort rfl nd hnd
            rw [hndl] at this
            exact this
          exact encodeCG_sorted hs
      rw [hcnt, he, hwf'.1, ← hwf'.2.1]
  have hmk2 : ∀ x : CGLabel, (∃ nd ∈ g.nodes, nd.label = x) → x.isUa = false →
      CGLabel.node (((flatCgl g sc).map
        (fun m => (⟨m, g.getReferenceSequence⟩ : CompactGenome))).getD
          (cgIndexOf (flatIdxs g sc) x)
          (⟨[], g.getReferenceSequence⟩ : CompactGenome)) none = x := by
    intro x hx hux
    have hb := (flatIdxs_spec g sc hrefl hcanon x hx).1
    rw [getD_map_lt (fun m => (⟨m, g.getReferenceSequence⟩ : CompactGenome))
      (flatCgl g sc) (cgIndexOf (flatIdxs g sc) x) hb
      (⟨[], g.getReferenceSequence⟩ : CompactGenome) []]
    exact hmk x hx hux
  obtain ⟨n, hn⟩ : ∃ n, g.nodes.length = n + 1 := by
    cases hgn : g.nodes with
    | nil => exact absurd hgn hne
    | cons a as => exact ⟨as.length, rfl⟩
  have hnlt : n < g.nodes.length := by omega
  have hglast : g.nodes.getLast? = some (g.nodes.get ⟨n, hnlt⟩) := by
    have hsub : g.nodes.length - 1 = n := by omega
    rw [List.getLast?_eq_getElem?, hsub]
    exact List.getElem?_eq_getElem (by omega)
  have hlastlbl : (g.nodes.get ⟨n, hnlt⟩).label = .ua := by
    rw [hglast] at hlast
    simpa using hlast
  have hlastcl : (g.nodes.get ⟨n, hnlt⟩).clades.map (·.1) = [∅] := by
    rw [hglast] at hlastclades
    simpa using hlastclades
  obtain ⟨ts, hts⟩ : ∃ ts, (g.nodes.get ⟨n, hnlt⟩).clades = [(∅, ts)] := by
    cases hc : (g.nodes.get ⟨n, hnlt⟩).clades with
    | nil =>
      rw [hc] at hlastcl
      simp at hlastcl
    | cons c rest =>
      rw [hc] at hlastcl
      simp only [List.map_cons, List.cons.injEq] at hlastcl
      obtain ⟨hc1, hrest⟩ := hlastcl
      have hrest' : rest = [] := by simpa using hrest
      refine ⟨c.2, ?_⟩
      rw [hrest', ← hc1]
  have hnodes0 : (flattenDag g sc).nodes.enum.map (unflatNode (flattenDag g sc))
      = g.nodes := by
    have hlen : ((flattenDag g sc).nodes.enum.map
        (unflatNode (flattenDag g sc))).length = g.nodes.length := by
      rw [List.length_map, List.enum_length, flattenDag_nodes, List.length_map]
    apply List.ext_getElem hlen
    intro i h1 h2
    rw [List.getElem_map, List.getElem_enum]
    simp only [flattenDag_nodes, List.getElem_map]
    simp only [unflatNode, List.length_map]
    simp only [flattenDag_cgs, flattenDag_refseq, flattenDag_edges]
    by_cases hin : i = n
    · have htsi : g.nodes[i].clades = [(∅, ts)] := by
        subst hin
        exact hts
      have hlbli : g.nodes[i].label = CGLabel.ua := by
        subst hin
        exact hlastlbl
      rw [htsi, if_pos (show ([((∅ : Finset CGLabel), ts)].length = 1) from rfl)]
      rw [flattenEdges_filter_zero g.nodes i 0]
      rw [List.getD_eq_getElem g.nodes default h2, htsi, List.getD_cons_zero]
      have hnode : g.nodes[i] = (⟨CGLabel.ua, [(∅, ts)]⟩ : DagNode) := by
        calc g.nodes[i] = ⟨g.nodes[i].label, g.nodes[i].clades⟩ := rfl
          _ = ⟨CGLabel.ua, [(∅, ts)]⟩ := by rw [hlbli, htsi]
      rw [hnode]
    · have hdl : g.nodes[i] ∈ g.nodes.dropLast := by
        have hlt : i < g.nodes.dropLast.length := by
          rw [List.length_dropLast]
          omega
        have heq : g.nodes.dropLast[i] = g.nodes[i] := List.getElem_dropLast _ _ hlt
        rw [← heq]
        exact List.getElem_mem hlt
      obtain ⟨hua, hclen⟩ := hdrop _ hdl
      rw [if_neg hclen]
      apply DagNode.ext'
      · exact hmk2 _ ⟨g.nodes[i], List.getElem_mem h2, rfl⟩ hua
      · show List.map _ (List.map _ g.nodes[i].clades).enum = g.nodes[i].clades
        apply List.ext_getElem
        · rw [List.length_map, List.enum_length, List.length_map]
        intro ci hci1 hci2
        rw [List.getElem_map, List.getElem_enum]
        simp only [List.getElem_map]
        have hcmem : g.nodes[i].clades[ci] ∈ g.nodes[i].clades :=
          List.getElem_mem hci2
        apply Prod.ext
        · show Finset.image _ (Finset.image (cgIndexOf (flatIdxs g sc))
            g.nodes[i].clades[ci].1) = g.nodes[i].clades[ci].1
          rw [Finset.image_image]
          refine Eq.trans (Finset.image_congr ?_) Finset.image_id
          intro x hx
          have hxK : x ∈ g.nodes[i].clades[ci].1 := by
            simpa using hx
          obtain ⟨hxua, hwx⟩ :=
            hcl g.nodes[i] (List.getElem_mem h2) _ hcmem x hxK
          simp only [Function.comp, id]
          exact hmk2 x hwx hxua
        · show List.map _ (List.filter _ (flattenEdges 0 g.nodes))
            = g.nodes[i].clades[ci].2
          rw [flattenEdges_filter_zero g.nodes i ci]
          rw [List.getD_eq_getElem g.nodes default h2]
          rw [List.getD_eq_getElem _ (∅, []) hci2]
  have hlen0 : ((flattenDag g sc).nodes.enum.map
      (unflatNode (flattenDag g sc))).length = n + 1 := by
    rw [hnodes0, hn]
  rw [unflattenDag_nodes_succ (flattenDag g sc) n hlen0, hnodes0]
  rw [List.getD_eq_getElem g.nodes default hnlt]
  have hupd : ({ g.nodes[n] with label := CGLabel.ua } : DagNode)
      = g.nodes.get ⟨n, hnlt⟩ := by
    calc ({ g.nodes[n] with label := CGLabel.ua } : DagNode)
        = ⟨CGLabel.ua, (g.nodes.get ⟨n, hnlt⟩).clades⟩ := rfl
      _ = ⟨(g.nodes.get ⟨n, hnlt⟩).label, (g.nodes.get ⟨n, hnlt⟩).clades⟩ := by
          rw [hlastlbl]
      _ = g.nodes.get ⟨n, hnlt⟩ := rfl
  rw [hupd]
  exact list_set_self g.nodes n hnlt

theorem testEqual_of_nodes_eq (a b : Dag) (h : a.nodes = b.nodes) :
    testEqual a b = true := by
  obtain ⟨na, aa⟩ := a
  obtain ⟨nb, ab⟩ := b
  have h' : na = nb := h
  subst h'
  simp only [testEqual, Bool.and_eq_true, decide_eq_true_eq]
  constructor <;> rfl

/-- C2 as stated is false: `dagUnifurc` has an internal unifurcation
(a non-UA node with exactly one clade), which `unflatten`'s "exactly one
clade" heuristic mistakes for the UA node, so the round trip is not
`test_equal` to the original. -/
theorem claim_C2_counterexample :
    testEqual (unflattenDag (flattenDag dagUnifurc false)) dagUnifurc = false := by
  decide

/-- C2 amended: for every history DAG in the engine's canonical shape
(`dagWf`: postorder node list ending in the UA node, whose only clade key is
the empty set; no other node a unifurcation; genome-only labels over one
shared reference with duplicate-free mutation dicts; clade members realized,
non-UA node labels; Python-equal labels identified), `unflatten (flatten dag)`
rebuilds the node list exactly, hence is `test_equal` to the original, without
genome sorting unconditionally, and with genome sorting whenever every label's
mutation dict iterates in sorted position order (as Python ≤-sorting of
serialized genomes requires for faithful index remapping). -/
theorem claim_C2 (g : Dag) (hw : dagWf g) :
    ((unflattenDag (flattenDag g false)).nodes = g.nodes ∧
      testEqual (unflattenDag (flattenDag g false)) g = true) ∧
    ((∀ nd ∈ g.nodes, cgSortedLabel nd.label) →
      (unflattenDag (flattenDag g true)).nodes = g.nodes ∧
      testEqual (unflattenDag (flattenDag g true)) g = true) := by
  have h1 := unflatten_flatten_nodes g false hw
    (fun h => absurd h Bool.false_ne_true)
  refine ⟨⟨h1, testEqual_of_nodes_eq _ _ h1⟩, ?_⟩
  intro hs
  have h2 := unflatten_flatten_nodes g true hw (fun _ => hs)
  exact ⟨h2, testEqual_of_nodes_eq _ _ h2⟩

/-- Witness for C2 on the concrete two-leaf DAG. -/
theorem claim_C2_witness :
    ((unflattenDag (flattenDag dagTwoLeaf false)).nodes = dagTwoLeaf.nodes ∧
      testEqual (unflattenDag (flattenDag dagTwoLeaf false)) dagTwoLeaf = true) ∧
    ((unflattenDag (flattenDag dagTwoLeaf true)).nodes = dagTwoLeaf.nodes ∧
      testEqual (unflattenDag (flattenDag dagTwoLeaf true)) dagTwoLeaf = true) :=
  ⟨(claim_C2 dagTwoLeaf (by decide)).1,
   (claim_C2 dagTwoLeaf (by decide)).2 (by decide)⟩

/-- C9 amended: for every history DAG in the engine's canonical shape
(`dagWf`) in which no non-UA node's genome equals the reference (a nonempty
mutation dict), the flat form produced by `flatten` without genome sorting
satisfies the invariants: the serialized genome list has no duplicate
entries even after canonicalizing each entry into sorted order; every
node's genome index and every member of every clade-index set is a valid
genome-list index; and the UA node is last in both node-index and
genome-index space, its genome entry being the empty list.  (As stated the
claim is false: an internal node whose genome equals the reference
serializes exactly like the UA node, duplicating the empty entry —
`claim_C9_counterexample`.) -/
theorem claim_C9 (g : Dag) (hw : dagWf g)
    (hne2 : ∀ nd ∈ g.nodes.dropLast, nd.label.cgMuts ≠ []) :
    ((flattenDag g false).compactGenomes.map canonMuts).Nodup ∧
    (∀ fn ∈ (flattenDag g false).nodes,
      fn.1 < (flattenDag g false).compactGenomes.length ∧
      ∀ s ∈ fn.2, ∀ j ∈ s, j < (flattenDag g false).compactGenomes.length) ∧
    ((flattenDag g false).nodes.getLast?).map (·.1)
      = some ((flattenDag g false).compactGenomes.length - 1) ∧
    (flattenDag g false).compactGenomes.getLast? = some [] := by
  obtain ⟨hne, hlast, hlastclades, hdrop, hlwf, hcl, hcanon⟩ := hw
  have hrefl : ∀ nd ∈ g.nodes, labelBeq nd.label nd.label = true := dagWf_refl hlwf
  obtain ⟨hL, hIDX, hCNT, hSRC, hCOV, hPW⟩ :=
    buildCgAux_spec false g.nodes [] [] hrefl rfl
      (fun j hj => absurd hj (Nat.not_lt_zero j))
      (fun j hj => absurd hj (Nat.not_lt_zero j)) List.Pairwise.nil
  obtain ⟨hL0, hIDX0, hCNT0, hSRC0, hCOV0, hPW0⟩ :=
    buildCgAux_spec false g.nodes.dropLast [] []
      (fun nd hnd => hrefl nd (List.dropLast_subset g.nodes hnd)) rfl
      (fun j hj => absurd hj (Nat.not_lt_zero j))
      (fun j hj => absurd hj (Nat.not_lt_zero j)) List.Pairwise.nil
  have hsplit : g.nodes.dropLast ++ [g.nodes.getLast hne] = g.nodes :=
    List.dropLast_append_getLast hne
  have hlastlbl : (g.nodes.getLast hne).label = CGLabel.ua := by
    rw [List.getLast?_eq_getLast g.nodes hne] at hlast
    simpa using hlast
  have hmem_dl : ∀ nd ∈ g.nodes, nd.label ≠ CGLabel.ua → nd ∈ g.nodes.dropLast := by
    intro nd hnd hlbl
    rw [← hsplit] at hnd
    rcases List.mem_append.mp hnd with h | h
    · exact h
    · rw [List.mem_singleton.mp h] at hlbl
      exact absurd hlastlbl hlbl
  have hfind_none : (buildCgAux false g.nodes.dropLast [] []).1.find?
      (fun p => labelBeq p.1 CGLabel.ua) = none := by
    rw [List.find?_eq_none]
    intro p hp
    rcases hSRC0 p hp with h | ⟨nd', hnd', h⟩
    · exact absurd h (List.not_mem_nil p)
    · intro hcon
      rw [labelBeq_ua_right] at hcon
      have hua := (hdrop nd' hnd').1
      rw [h] at hcon
      rw [hcon] at hua
      simp [CGLabel.isUa] at hua
  have hdecomp : buildCgAux false g.nodes [] []
      = ((buildCgAux false g.nodes.dropLast [] []).1
          ++ [(CGLabel.ua, (buildCgAux false g.nodes.dropLast [] []).2.length)],
         (buildCgAux false g.nodes.dropLast [] []).2 ++ [[]]) := by
    have hdec := buildCgAux_append false g.nodes.dropLast [g.nodes.getLast hne] [] []
    rw [hsplit] at hdec
    rw [hdec, buildCgAux, hlastlbl, hfind_none]
    rw [if_neg (by simp)]
    rw [buildCgAux]
    rfl
  have hidx_ua : cgIndexOf (buildCgAux false g.nodes [] []).1 CGLabel.ua
      = (buildCgAux false g.nodes.dropLast [] []).2.length := by
    simp only [cgIndexOf]
    rw [hdecomp]
    rw [List.find?_append, hfind_none]
    rfl
  have hnodes_eq : (flattenDag g false).nodes = g.nodes.map (fun nd =>
      (cgIndexOf (buildCgAux false g.nodes [] []).1 nd.label,
        nd.clades.map (fun c =>
          c.1.image (cgIndexOf (buildCgAux false g.nodes [] []).1)))) := rfl
  have hcgs_eq : (flattenDag g false).compactGenomes
      = (buildCgAux false g.nodes [] []).2 := rfl
  -- the canonical-serialization injectivity on realized labels
  have hkey : ∀ l1 l2 : CGLabel, (∃ nd ∈ g.nodes, nd.label = l1) →
      (∃ nd ∈ g.nodes, nd.label = l2) → labelBeq l1 l2 = false →
      canonMuts l1.cgMuts ≠ canonMuts l2.cgMuts := by
    intro l1 l2 hw1 hw2 hbeq hcon
    have hperm : l1.cgMuts.Perm l2.cgMuts := by
      have p1 : l1.cgMuts.Perm (canonMuts l1.cgMuts) :=
        (List.perm_insertionSort _ _).symm
      rw [hcon] at p1
      exact p1.trans (List.perm_insertionSort _ _)
    obtain ⟨nd1, hnd1, h1⟩ := hw1
    obtain ⟨nd2, hnd2, h2⟩ := hw2
    cases l1 with
    | ua =>
      cases l2 with
      | ua => simp [labelBeq] at hbeq
      | node cg2 i2 =>
        have hm2 : cg2.mutations = [] := (List.Perm.nil_eq hperm).symm
        have hdl2 : nd2 ∈ g.nodes.dropLast := by
          apply hmem_dl nd2 hnd2
          rw [h2]
          intro hcon2
          exact CGLabel.noConfusion hcon2
        apply hne2 nd2 hdl2
        rw [h2]
        exact hm2
    | node cg1 i1 =>
      cases l2 with
      | ua =>
        have hm1 : cg1.mutations = [] := List.Perm.eq_nil hperm
        have hdl1 : nd1 ∈ g.nodes.dropLast := by
          apply hmem_dl nd1 hnd1
          rw [h1]
          intro hcon1
          exact CGLabel.noConfusion hcon1
        apply hne2 nd1 hdl1
        rw [h1]
        exact hm1
      | node cg2 i2 =>
        have hwf1 := hlwf nd1 hnd1
        rw [h1] at hwf1
        have hwf1' : i1 = none ∧ cg1.reference = g.getReferenceSequence ∧
            keysNodup cg1.mutations := hwf1
        have hwf2 := hlwf nd2 hnd2
        rw [h2] at hwf2
        have hwf2' : i2 = none ∧ cg2.reference = g.getReferenceSequence ∧
            keysNodup cg2.mutations := hwf2
        have hperm' : cg1.mutations.Perm cg2.mutations := hperm
        have hmbeq : mutsBeq cg1.mutations cg2.mutations = true :=
          perm_mutsBeq hperm' hwf1'.2.2
        have hbt : labelBeq (CGLabel.node cg1 i1) (CGLabel.node cg2 i2) = true := by
          simp [labelBeq, cgEqb, hmbeq, hwf1'.2.1, hwf2'.2.1, hwf1'.1, hwf2'.1]
        rw [hbt] at hbeq
        simp at hbeq
  refine ⟨?_, ?_, ?_, ?_⟩
  · rw [hcgs_eq]
    have hpair : List.Pairwise (fun a b => canonMuts a ≠ canonMuts b)
        (buildCgAux false g.nodes [] []).2 := by
      rw [List.pairwise_iff_getElem]
      intro i j hi hj hij
      have hiI : i < (buildCgAux false g.nodes [] []).1.length := by
        rw [hL]
        exact hi
      have hjI : j < (buildCgAux false g.nodes [] []).1.length := by
        rw [hL]
        exact hj
      have hci : (buildCgAux false g.nodes [] []).2[i]
          = encodeCG false ((buildCgAux false g.nodes [] []).1.getD i (.ua, 0)).1 := by
        rw [← List.getD_eq_getElem (buildCgAux false g.nodes [] []).2 [] hi]
        exact hCNT i hiI
      have hcj : (buildCgAux false g.nodes [] []).2[j]
          = encodeCG false ((buildCgAux false g.nodes [] []).1.getD j (.ua, 0)).1 := by
        rw [← List.getD_eq_getElem (buildCgAux false g.nodes [] []).2 [] hj]
        exact hCNT j hjI
      have hpwij : labelBeq ((buildCgAux false g.nodes [] []).1.getD i (.ua, 0)).1
          ((buildCgAux false g.nodes [] []).1.getD j (.ua, 0)).1 = false := by
        have := List.pairwise_iff_getElem.mp hPW i j hiI hjI hij
        rw [List.getD_eq_getElem _ _ hiI, List.getD_eq_getElem _ _ hjI]
        exact this
      have hsrci := hSRC _ (List.getElem_mem hiI)
      have hsrcj := hSRC _ (List.getElem_mem hjI)
      rw [hci, hcj, encodeCG_false, encodeCG_false]
      apply hkey
      · rcases hsrci with h | ⟨nd', hnd', h⟩
        · exact absurd h (List.not_mem_nil _)
        · rw [List.getD_eq_getElem _ _ hiI, h]
          exact ⟨nd', hnd', rfl⟩
      · rcases hsrcj with h | ⟨nd', hnd', h⟩
        · exact absurd h (List.not_mem_nil _)
        · rw [List.getD_eq_getElem _ _ hjI, h]
          exact ⟨nd', hnd', rfl⟩
      · exact hpwij
    exact List.Pairwise.map canonMuts (fun a b h => h) hpair
  · intro fn hfn
    rw [hnodes_eq] at hfn
    obtain ⟨nd, hnd, rfl⟩ := List.mem_map.mp hfn
    constructor
    · rw [hcgs_eq]
      exact (cgIndexOf_spec false g.nodes hrefl hcanon nd.label ⟨nd, hnd, rfl⟩).1
    · intro s hs j hj
      obtain ⟨c, hc, rfl⟩ := List.mem_map.mp hs
      obtain ⟨x, hx, rfl⟩ := Finset.mem_image.mp hj
      obtain ⟨hxua, nd', hnd', hx'⟩ := hcl nd hnd c hc x hx
      rw [hcgs_eq]
      exact (cgIndexOf_spec false g.nodes hrefl hcanon x ⟨nd', hnd', hx'⟩).1
  · rw [hnodes_eq, List.getLast?_map, List.getLast?_eq_getLast g.nodes hne]
    simp only [Option.map_some']
    rw [hlastlbl, hidx_ua, hcgs_eq, hdecomp]
    simp
  · rw [hcgs_eq, hdecomp]
    exact List.getLast?_concat _

/-- C9 as stated is false: in `dagEmptyInner` an internal node's compact
genome is empty (equal to the reference), so its serialized genome
duplicates the UA node's empty entry, and the canonicalized genome list has
duplicate entries. -/
theorem claim_C9_counterexample :
    ¬ ((flattenDag dagEmptyInner false).compactGenomes.map canonMuts).Nodup := by
  decide

/-- Witness for C9 on the concrete two-leaf DAG. -/
theorem claim_C9_witness :
    ((flattenDag dagTwoLeaf false).compactGenomes.map canonMuts).Nodup ∧
    (∀ fn ∈ (flattenDag dagTwoLeaf false).nodes,
      fn.1 < (flattenDag dagTwoLeaf false).compactGenomes.length ∧
      ∀ s ∈ fn.2, ∀ j ∈ s, j < (flattenDag dagTwoLeaf false).compactGenomes.length) ∧
    ((flattenDag dagTwoLeaf false).nodes.getLast?).map (·.1)
      = some ((flattenDag dagTwoLeaf false).compactGenomes.length - 1) ∧
    (flattenDag dagTwoLeaf false).compactGenomes.getLast? = some [] :=
  claim_C9 dagTwoLeaf (by decide) (by decide)

theorem buildCgAux_label_eq (s : Bool) :
    ∀ (xs ys : List DagNode), xs.map (·.label) = ys.map (·.label) →
      ∀ (idxs : List (CGLabel × Nat)) (cgl : List MutList),
        buildCgAux s xs idxs cgl = buildCgAux s ys idxs cgl := by
  intro xs
  induction xs with
  | nil =>
    intro ys h idxs cgl
    cases ys with
    | nil => rfl
    | cons b bs => simp at h
  | cons a as ih =>
    intro ys h idxs cgl
    cases ys with
    | nil => simp at h
    | cons b bs =>
      simp only [List.map_cons, List.cons.injEq] at h
      obtain ⟨h1, h2⟩ := h
      rw [buildCgAux, buildCgAux, h1]
      by_cases hf : ((idxs.find? (fun p => labelBeq p.1 b.label)).isSome) = true
      · rw [if_pos hf, if_pos hf]
        exact ih bs h2 idxs cgl
      · rw [if_neg hf, if_neg hf]
        exact ih bs h2 _ _

theorem mem_cladeEdges_proj (i : Nat) :
    ∀ (clades : List (Finset CGLabel × List Nat)) (ci0 : Nat)
      (e : Nat × Nat × Nat), e ∈ cladeEdges i ci0 clades →
        e.1 = i ∧ ∃ c ∈ clades, e.2.1 ∈ c.2 := by
  intro clades
  induction clades with
  | nil =>
    intro ci0 e he
    simp [cladeEdges] at he
  | cons c rest ih =>
    intro ci0 e he
    rw [cladeEdges] at he
    rcases List.mem_append.mp he with h | h
    · obtain ⟨t, ht, rfl⟩ := List.mem_map.mp h
      exact ⟨rfl, c, List.mem_cons_self _ _, ht⟩
    · obtain ⟨h1, c', hc', ht⟩ := ih (ci0 + 1) e h
      exact ⟨h1, c', List.mem_cons_of_mem _ hc', ht⟩

theorem cladeEdges_mem_intro (i : Nat) :
    ∀ (clades : List (Finset CGLabel × List Nat)) (ci0 t : Nat),
      (∃ c ∈ clades, t ∈ c.2) →
      ∃ ci, (i, t, ci) ∈ cladeEdges i ci0 clades := by
  intro clades
  induction clades with
  | nil =>
    intro ci0 t h
    obtain ⟨c, hc, _⟩ := h
    exact absurd hc (List.not_mem_nil c)
  | cons c rest ih =>
    intro ci0 t h
    obtain ⟨c', hc', ht⟩ := h
    rcases List.mem_cons.mp hc' with h1 | h1
    · refine ⟨ci0, ?_⟩
      rw [cladeEdges]
      apply List.mem_append_left
      subst h1
      exact List.mem_map.mpr ⟨t, ht, rfl⟩
    · obtain ⟨ci, hci⟩ := ih (ci0 + 1) t ⟨c', h1, ht⟩
      refine ⟨ci, ?_⟩
      rw [cladeEdges]
      exact List.mem_append_right _ hci

theorem flattenEdges_mem_proj :
    ∀ (nds : List DagNode) (i0 : Nat) (e : Nat × Nat × Nat),
      e ∈ flattenEdges i0 nds →
      ∃ k, k < nds.length ∧ e.1 = i0 + k ∧
        ∃ c ∈ (nds.getD k default).clades, e.2.1 ∈ c.2 := by
  intro nds
  induction nds with
  | nil =>
    intro i0 e he
    simp [flattenEdges] at he
  | cons nd rest ih =>
    intro i0 e he
    rw [flattenEdges] at he
    rcases List.mem_append.mp he with h | h
    · obtain ⟨h1, c, hc, ht⟩ := mem_cladeEdges_proj i0 nd.clades 0 e h
      refine ⟨0, by simp, by omega, ?_⟩
      rw [List.getD_cons_zero]
      exact ⟨c, hc, ht⟩
    · obtain ⟨k, hk, h1, c, hc, ht⟩ := ih (i0 + 1) e h
      refine ⟨k + 1, by simpa using hk, by omega, ?_⟩
      rw [List.getD_cons_succ]
      exact ⟨c, hc, ht⟩

theorem flattenEdges_mem_intro :
    ∀ (nds : List DagNode) (i0 k : Nat), k < nds.length → ∀ (t : Nat),
      (∃ c ∈ (nds.getD k default).clades, t ∈ c.2) →
      ∃ ci, (i0 + k, t, ci) ∈ flattenEdges i0 nds := by
  intro nds
  induction nds with
  | nil =>
    intro i0 k hk
    simp at hk
  | cons nd rest ih =>
    intro i0 k hk t h
    cases k with
    | zero =>
      rw [List.getD_cons_zero] at h
      obtain ⟨ci, hci⟩ := cladeEdges_mem_intro i0 nd.clades 0 t h
      refine ⟨ci, ?_⟩
      rw [flattenEdges]
      apply List.mem_append_left
      have harith : i0 + 0 = i0 := by omega
      rw [harith]
      exact hci
    | succ m =>
      rw [List.getD_cons_succ] at h
      obtain ⟨ci, hci⟩ := ih (i0 + 1) m (by simpa using hk) t h
      refine ⟨ci, ?_⟩
      rw [flattenEdges]
      apply List.mem_append_right
      have harith : i0 + (m + 1) = (i0 + 1) + m := by omega
      rw [harith]
      exact hci

theorem edgeImage_transfer (na nb : List DagNode)
    (nl : List (Nat × Finset (Finset Nat)))
    (hlen : na.length = nb.length)
    (hpt : ∀ k < na.length,
      ((na.getD k default).clades.map (fun c => (c.1, (c.2 : Multiset Nat)))).Perm
        ((nb.getD k default).clades.map (fun c => (c.1, (c.2 : Multiset Nat)))))
    (x : (Nat × Finset (Finset Nat)) × (Nat × Finset (Finset Nat)))
    (hx : ∃ e ∈ flattenEdges 0 na, (nl.getD e.1 (0, ∅), nl.getD e.2.1 (0, ∅)) = x) :
    ∃ e ∈ flattenEdges 0 nb, (nl.getD e.1 (0, ∅), nl.getD e.2.1 (0, ∅)) = x := by
  obtain ⟨e, he, rfl⟩ := hx
  obtain ⟨k, hk, he1, c, hc, ht⟩ := flattenEdges_mem_proj na 0 e he
  have hkb : k < nb.length := by omega
  have hpk := hpt k hk
  have hmem1 : ((c.1, (c.2 : Multiset Nat)) : Finset CGLabel × Multiset Nat)
      ∈ (nb.getD k default).clades.map (fun c => (c.1, (c.2 : Multiset Nat))) :=
    hpk.mem_iff.mp (List.mem_map.mpr ⟨c, hc, rfl⟩)
  obtain ⟨c', hc', hcc⟩ := List.mem_map.mp hmem1
  have ht' : e.2.1 ∈ c'.2 := by
    have h2 : (c'.2 : Multiset Nat) = (c.2 : Multiset Nat) :=
      congrArg Prod.snd hcc
    rw [← Multiset.mem_coe, h2, Multiset.mem_coe]
    exact ht
  obtain ⟨ci, hci⟩ := flattenEdges_mem_intro nb 0 k hkb e.2.1 ⟨c', hc', ht'⟩
  refine ⟨(0 + k, e.2.1, ci), hci, ?_⟩
  rw [he1]

/-- C8 amended: `test_equal` flattens both DAGs without genome sorting and
returns true exactly when the two serialized genome lists are equal as
(order-sensitive) lists and the canonicalized edge sets — every node
represented by its genome index and its frozen set of frozen clade
genome-index sets — are equal; consequently it is invariant under reordering
each node's clades and each clade's edge list, but NOT under node index
reassignment: two DAGs listing Python-equal nodes in different postorder
positions flatten to permuted genome lists and compare unequal
(`claim_C8_counterexample`). -/
theorem claim_C8 (a b : Dag) :
    (testEqual a b = true ↔
      ((flattenDag a false).compactGenomes = (flattenDag b false).compactGenomes ∧
        getEdgeSet (flattenDag a false) = getEdgeSet (flattenDag b false))) ∧
    (a.nodes.length = b.nodes.length →
      (∀ i < a.nodes.length,
        (a.nodes.getD i default).label = (b.nodes.getD i default).label ∧
        ((a.nodes.getD i default).clades.map
          (fun c => (c.1, (c.2 : Multiset Nat)))).Perm
          ((b.nodes.getD i default).clades.map
            (fun c => (c.1, (c.2 : Multiset Nat))))) →
      testEqual a b = true) := by
  constructor
  · simp [testEqual]
  · intro hlen hpt
    have hmap : a.nodes.map (·.label) = b.nodes.map (·.label) := by
      apply List.ext_getElem
      · simp [hlen]
      intro i h1 h2
      have hA : i < a.nodes.length := by simpa using h1
      have hB : i < b.nodes.length := by simpa using h2
      rw [List.getElem_map, List.getElem_map]
      have hl := (hpt i hA).1
      rw [List.getD_eq_getElem a.nodes default hA,
        List.getD_eq_getElem b.nodes default hB] at hl
      exact hl
    have hbuild : buildCgAux false a.nodes [] [] = buildCgAux false b.nodes [] [] :=
      buildCgAux_label_eq false a.nodes b.nodes hmap [] []
    have hcgs : (flattenDag a false).compactGenomes
        = (flattenDag b false).compactGenomes := by
      show (buildCgAux false a.nodes [] []).2 = (buildCgAux false b.nodes [] []).2
      rw [hbuild]
    have hidxs : flatIdxs a false = flatIdxs b false := by
      show (buildCgAux false a.nodes [] []).1 = (buildCgAux false b.nodes [] []).1
      rw [hbuild]
    have hnl : (flattenDag a false).nodes.map convertFlatnode
        = (flattenDag b false).nodes.map convertFlatnode := by
      rw [flattenDag_nodes a false, flattenDag_nodes b false, hidxs]
      apply List.ext_getElem
      · simp [hlen]
      intro i h1 h2
      have hA : i < a.nodes.length := by simpa using h1
      have hB : i < b.nodes.length := by simpa using h2
      simp only [List.getElem_map]
      have hlbl := (hpt i hA).1
      have hperm := (hpt i hA).2
      rw [List.getD_eq_getElem a.nodes default hA,
        List.getD_eq_getElem b.nodes default hB] at hlbl hperm
      simp only [convertFlatnode]
      rw [hlbl]
      congr 1
      apply List.toFinset_eq_of_perm
      have himg := hperm.map (fun (p : Finset CGLabel × Multiset Nat) =>
        p.1.image (cgIndexOf (flatIdxs b false)))
      simpa [List.map_map, Function.comp] using himg
    have hedge : getEdgeSet (flattenDag a false) = getEdgeSet (flattenDag b false) := by
      simp only [getEdgeSet]
      rw [hnl, flattenDag_edges a false, flattenDag_edges b false]
      ext x
      simp only [List.mem_toFinset, List.mem_map]
      have hptk : ∀ k < a.nodes.length,
          ((a.nodes.getD k default).clades.map
            (fun c => (c.1, (c.2 : Multiset Nat)))).Perm
          ((b.nodes.getD k default).clades.map
            (fun c => (c.1, (c.2 : Multiset Nat)))) :=
        fun k hk => (hpt k hk).2
      constructor
      · intro hx
        exact edgeImage_transfer a.nodes b.nodes _ hlen hptk x hx
      · intro hx
        exact edgeImage_transfer b.nodes a.nodes _ hlen.symm
          (fun k hk => (hptk k (by omega)).symm) x hx
    simp only [testEqual, Bool.and_eq_true, decide_eq_true_eq]
    exact ⟨hcgs, hedge⟩

/-- C8 as stated is false in its "invariant to node index assignment" part:
the same three nodes listed with the two leaves' postorder positions swapped
flatten to permuted genome lists, so `test_equal` answers `false` even
though the sorted genome lists and the canonicalized edge sets agree. -/
theorem claim_C8_counterexample :
    testEqual dagTwoLeaf dagTwoLeafSwapped = false ∧
    ((flattenDag dagTwoLeaf false).compactGenomes.insertionSort
        (fun m1 m2 => mutListLe m1 m2 = true)
      = (flattenDag dagTwoLeafSwapped false).compactGenomes.insertionSort
        (fun m1 m2 => mutListLe m1 m2 = true)) ∧
    getEdgeSet (flattenDag dagTwoLeaf false)
      = getEdgeSet (flattenDag dagTwoLeafSwapped false) := by
  decide

/-- Witness for C8: the characterization at `dagTwoLeaf` vs itself with the
UA node's edge list reversed, whose `test_equal` is `true`. -/
theorem claim_C8_witness :
    testEqual dagTwoLeaf dagTwoLeafEdgeSwap = true :=
  (claim_C8 dagTwoLeaf dagTwoLeafEdgeSwap).2 (by decide) (by decide)

/-- C1: the protobuf round trip `load_MAD_protobuf ∘ to_protobuf` is NOT
`test_equal` to the original on `dagProto`, a two-node DAG whose leaf genome
dict iterates position 2 before position 1: the decoder rebuilds every
genome dict in mutation-application (ascending position) order while
`test_equal` compares the serialized dict iteration orders as lists.  The
same round trip is `test_equal` on `dagTwoLeaf`, whose dicts already iterate
in ascending order, isolating the divergence to dict iteration order. -/
theorem claim_C1 :
    testEqual (load_MAD_protobuf (dagProto.toProtobuf (some (fun nd => "L1"))))
      dagProto = false ∧
    testEqual (load_MAD_protobuf (dagTwoLeaf.toProtobuf (some (fun nd => "L1"))))
      dagTwoLeaf = true := by
  decide
